import Mathlib

/-!
Verification development for the rope / edit / re1 core of the T text editor.

Shallow embedding conventions:
* Go byte strings are `List Nat` (each element a byte value; rope content is
  byte-oriented in the source).
* Go `int64` values (byte offsets, diff coordinates, rune values) are `Int`.
* Go functions that can panic are embedded with `Option` (or an explicit
  panic-carrying result type where the panic itself is under study): `none`
  models a panic.
* Pattern and command text, which the Go code walks rune by rune with
  `utf8.DecodeRuneInString`, is modelled as the decoded rune sequence
  `List Int` (for valid UTF-8 input the two views are isomorphic, and all
  inputs in this development are valid).
-/

namespace T

/-! ## Rope (rope/rope.go)

`Rope` has two shapes, `leaf` and `node`.  The Go `node` caches the combined
length; `Append` is the only constructor of nodes and always stores
`left.Len() + right.Len()`, so the embedding computes the length
structurally instead of storing the cache. -/

inductive Rope where
  | leaf (text : List Nat)
  | node (left right : Rope)
deriving DecidableEq, Repr

namespace Rope

/-- `Len()`: length in bytes. -/
def len : Rope → Nat
  | .leaf t => t.length
  | .node l r => l.len + r.len

/-- `String()`: full materialization (as the byte sequence). -/
def toList : Rope → List Nat
  | .leaf t => t
  | .node l r => l.toList ++ r.toList

end Rope

/-- `New`: wraps a byte string as a leaf. -/
def NewRope (text : List Nat) : Rope := .leaf text

/-- `Empty()` is `New("")`. -/
def EmptyRope : Rope := NewRope []

/-- `smallSize`: concatenations at or below this size flatten into one leaf. -/
def smallSize : Nat := 32

/-- `Append(l, r)`: concatenation with the three fast paths of the source
(either side empty; combined small; right-leaf "niece" merge). -/
def Append (l r : Rope) : Rope :=
  if l.len = 0 then r
  else if r.len = 0 then l
  else if l.len + r.len ≤ smallSize then .leaf (l.toList ++ r.toList)
  else
    match l with
    | .node ll lr =>
      if lr.len + r.len ≤ smallSize then .node ll (.leaf (lr.toList ++ r.toList))
      else .node (.node ll lr) r
    | .leaf t => .node (.leaf t) r

/-- `split(rope, i)`: the single splitting primitive.  The Go function
panics when `i < 0 || i > rope.Len()`; the panic is `none` here.  (The Go
guard precedes the type switch; here it is stated in each branch with that
shape's `Len()`, which is the same test.) -/
def split : Rope → Int → Option (Rope × Rope)
  | .leaf t, i =>
    if i < 0 ∨ i > ((Rope.leaf t).len : Int) then none
    else some (.leaf (t.take i.toNat), .leaf (t.drop i.toNat))
  | .node l r, i =>
    if i < 0 ∨ i > ((Rope.node l r).len : Int) then none
    else if i ≤ (l.len : Int) then
      match split l i with
      | none => none
      | some (a, b) => some (a, Append b r)
    else
      match split r (i - l.len) with
      | none => none
      | some (a, b) => some (Append l a, b)

/-- `Split(r, i)`. -/
def Split (r : Rope) (i : Int) : Option (Rope × Rope) := split r i

/-- `Delete(r, start, n)`: deletes `n` bytes beginning at `start`. -/
def Delete (r : Rope) (start n : Int) : Option Rope := do
  let (r1, l) ← split r start
  let (_, l2) ← split l (start + n - r1.len)
  return Append r1 l2

/-- `Insert(r, i, ins)`: inserts `ins` at index `i`. -/
def Insert (r : Rope) (i : Int) (ins : Rope) : Option Rope := do
  let (r1, l) ← split r i
  return Append (Append r1 ins) l

/-- `Slice(r, start, end)`: the bytes in `[start, end)`. -/
def Slice (r : Rope) (start e : Int) : Option Rope := do
  let (_, r1) ← split r start
  let (r2, _) ← split r1 (e - start)
  return r2

/-! ### Rope lemmas -/

theorem toList_length (r : Rope) : r.toList.length = r.len := by
  induction r with
  | leaf t => rfl
  | node l r ihl ihr => simp [Rope.toList, Rope.len, ihl, ihr]

theorem toList_eq_nil_of_len_eq_zero {r : Rope} (h : r.len = 0) : r.toList = [] := by
  have hl := toList_length r
  exact List.length_eq_zero.mp (by omega)

theorem Append_toList (l r : Rope) : (Append l r).toList = l.toList ++ r.toList := by
  unfold Append
  split
  · next h => simp [toList_eq_nil_of_len_eq_zero h]
  · split
    · next h => simp [toList_eq_nil_of_len_eq_zero h]
    · split
      · rfl
      · split
        · split
          · simp [Rope.toList]
          · simp [Rope.toList]
        · simp [Rope.toList]

theorem Append_len (l r : Rope) : (Append l r).len = l.len + r.len := by
  have h := Append_toList l r
  have h1 := toList_length (Append l r)
  have h2 := toList_length l
  have h3 := toList_length r
  rw [h] at h1
  simp at h1
  omega

theorem split_leaf (t : List Nat) (i : Int) :
    split (.leaf t) i =
      if i < 0 ∨ i > ((Rope.leaf t).len : Int) then none
      else some (.leaf (t.take i.toNat), .leaf (t.drop i.toNat)) := by
  rw [split]

theorem split_node (l r : Rope) (i : Int) :
    split (.node l r) i =
      if i < 0 ∨ i > ((Rope.node l r).len : Int) then none
      else if i ≤ (l.len : Int) then
        match split l i with
        | none => none
        | some (a, b) => some (a, Append b r)
      else
        match split r (i - l.len) with
        | none => none
        | some (a, b) => some (Append l a, b) := by
  rw [split]

theorem split_some {r : Rope} {i : Int} (h0 : 0 ≤ i) (h1 : i ≤ (r.len : Int)) :
    ∃ a b, split r i = some (a, b) ∧
      a.toList = r.toList.take i.toNat ∧ b.toList = r.toList.drop i.toNat := by
  induction r generalizing i with
  | leaf t =>
    refine ⟨.leaf (t.take i.toNat), .leaf (t.drop i.toNat), ?_, rfl, rfl⟩
    rw [split_leaf, if_neg (by omega)]
  | node l r ihl ihr =>
    have hnode : (Rope.node l r).len = l.len + r.len := rfl
    by_cases hc : i ≤ (l.len : Int)
    · obtain ⟨a, b, heq, hta, htb⟩ := ihl h0 hc
      refine ⟨a, Append b r, ?_, ?_, ?_⟩
      · rw [split_node, if_neg (by rw [hnode]; push_cast; omega), if_pos hc, heq]
      · rw [hta, Rope.toList]
        rw [List.take_append_of_le_length]
        rw [toList_length]; omega
      · rw [Append_toList, htb, Rope.toList]
        rw [List.drop_append_of_le_length]
        rw [toList_length]; omega
    · have h0' : 0 ≤ i - (l.len : Int) := by omega
      have h1' : i - (l.len : Int) ≤ (r.len : Int) := by
        rw [hnode] at h1; push_cast at h1; omega
      obtain ⟨a, b, heq, hta, htb⟩ := ihr h0' h1'
      refine ⟨Append l a, b, ?_, ?_, ?_⟩
      · rw [split_node, if_neg (by rw [hnode]; push_cast; omega), if_neg hc, heq]
      · have e1 : List.take i.toNat l.toList = l.toList :=
          List.take_of_length_le (by rw [toList_length]; omega)
        have e2 : i.toNat - l.toList.length = (i - (l.len : Int)).toNat := by
          rw [toList_length]; omega
        rw [Append_toList, hta, Rope.toList, List.take_append_eq_append_take, e1, e2]
      · have e2 : i.toNat - l.toList.length = (i - (l.len : Int)).toNat := by
          rw [toList_length]; omega
        have e3 : List.drop i.toNat l.toList = [] :=
          List.drop_eq_nil_of_le (by rw [toList_length]; omega)
        rw [htb, Rope.toList, List.drop_append_eq_append_drop, e3, e2, List.nil_append]

theorem split_none {r : Rope} {i : Int} (h : i < 0 ∨ (r.len : Int) < i) :
    split r i = none := by
  cases r with
  | leaf t => rw [split_leaf, if_pos (by exact h.imp id (by omega))]
  | node l r => rw [split_node, if_pos (by exact h.imp id (by omega))]

theorem split_parts {r a b : Rope} {i : Int} (h0 : 0 ≤ i) (h1 : i ≤ (r.len : Int))
    (h : split r i = some (a, b)) :
    a.toList = r.toList.take i.toNat ∧ b.toList = r.toList.drop i.toNat := by
  obtain ⟨a', b', heq, hta, htb⟩ := split_some h0 h1
  rw [heq] at h
  cases h
  exact ⟨hta, htb⟩

theorem split_fst_len {r a b : Rope} {i : Int} (h0 : 0 ≤ i) (h1 : i ≤ (r.len : Int))
    (h : split r i = some (a, b)) : (a.len : Int) = i := by
  obtain ⟨hta, _⟩ := split_parts h0 h1 h
  have := toList_length a
  rw [hta] at this
  simp [toList_length] at this
  omega

theorem Delete_toList {r : Rope} {start n : Int}
    (h0 : 0 ≤ start) (h1 : 0 ≤ n) (h2 : start + n ≤ (r.len : Int)) :
    (Delete r start n).map Rope.toList
      = some (r.toList.take start.toNat ++ r.toList.drop (start + n).toNat) := by
  obtain ⟨r1, l, heq, hr1, hl⟩ := @split_some r start h0 (by omega)
  have hlen1 : (r1.len : Int) = start := split_fst_len h0 (by omega) heq
  have hllen : (l.len : Int) = (r.len : Int) - start := by
    have := toList_length l
    rw [hl] at this
    simp [toList_length] at this
    omega
  have harg : start + n - (r1.len : Int) = n := by omega
  obtain ⟨m, l2, heq2, _, hl2⟩ := @split_some l n h1 (by omega)
  unfold Delete
  rw [heq]
  simp only [Option.bind_eq_bind, Option.some_bind, harg, heq2]
  simp only [Option.pure_def, Option.map_some']
  have e : start.toNat + n.toNat = (start + n).toNat := by omega
  rw [Append_toList, hr1, hl2, hl, List.drop_drop, e]

theorem Insert_toList {r : Rope} {i : Int} {ins : Rope}
    (h0 : 0 ≤ i) (h1 : i ≤ (r.len : Int)) :
    (Insert r i ins).map Rope.toList
      = some (r.toList.take i.toNat ++ ins.toList ++ r.toList.drop i.toNat) := by
  obtain ⟨r1, l, heq, hr1, hl⟩ := split_some h0 h1
  unfold Insert
  rw [heq]
  simp only [Option.bind_eq_bind, Option.some_bind, Option.pure_def, Option.map_some']
  rw [Append_toList, Append_toList, hr1, hl]

theorem Slice_toList {r : Rope} {start e : Int}
    (h0 : 0 ≤ start) (h1 : start ≤ e) (h2 : e ≤ (r.len : Int)) :
    (Slice r start e).map Rope.toList
      = some ((r.toList.drop start.toNat).take (e - start).toNat) := by
  obtain ⟨a, r1, heq, _, hr1⟩ := @split_some r start h0 (by omega)
  have hr1len : (r1.len : Int) = (r.len : Int) - start := by
    have := toList_length r1
    rw [hr1] at this
    simp [toList_length] at this
    omega
  obtain ⟨r2, b, heq2, hr2, _⟩ := @split_some r1 (e - start) (by omega) (by omega)
  unfold Slice
  rw [heq]
  simp only [Option.bind_eq_bind, Option.some_bind, heq2, Option.pure_def, Option.map_some']
  rw [hr2, hr1]

/-! ## Diff / Diffs (edit/edit.go)

A `Diff` replaces the byte span `[At.1, At.2)` by `Text` (`none` meaning
pure deletion).  `Diffs` is an ordered list. -/

structure Diff where
  At : Int × Int
  Text : Option Rope
deriving DecidableEq, Repr

/-- `TextLen`: length of `Text`; 0 if `Text` is nil. -/
def Diff.TextLen (d : Diff) : Int :=
  match d.Text with
  | none => 0
  | some t => (t.len : Int)

/-- `Diff.Update`: updated dot accounting for the change of the diff.
The six cases follow the source switch in order. -/
def Diff.Update (d : Diff) (dot : Int × Int) : Int × Int :=
  let delta := d.TextLen - (d.At.2 - d.At.1)
  if d.At.1 ≥ dot.2 then
    dot
  else if d.At.2 ≤ dot.1 then
    (dot.1 + delta, dot.2 + delta)
  else if dot.1 ≤ d.At.1 ∧ d.At.2 < dot.2 then
    (dot.1, dot.2 + delta)
  else if d.At.1 ≤ dot.1 ∧ dot.2 < d.At.2 then
    (d.At.1, d.At.1)
  else if d.At.2 < dot.2 then
    (d.At.1 + d.TextLen, d.At.1 + d.TextLen + (dot.2 - d.At.2))
  else
    (dot.1, d.At.1)

/-- `Diffs.Update`: folds `Diff.Update` over the list. -/
def DiffsUpdate : List Diff → Int × Int → Int × Int
  | [], dot => dot
  | d :: ds, dot => DiffsUpdate ds (d.Update dot)

/-- `Diff.Apply`: applies the diff, returning the new rope and the undo
diff.  Rope-index panics are `none`.  The guard `0 < TextLen` implies
`Text` is non-nil, so the `getD` default is never reached (Go dereferences
`d.Text` directly under the same guard). -/
def Diff.Apply (d : Diff) (ro : Rope) : Option (Rope × Diff) := do
  let (deleted, ro1) ←
    if d.At.1 < d.At.2 then do
      let sl ← Slice ro d.At.1 d.At.2
      let ro' ← Delete ro d.At.1 (d.At.2 - d.At.1)
      some (some sl, ro')
    else some ((none : Option Rope), ro)
  let ro2 ←
    if 0 < d.TextLen then Insert ro1 d.At.1 (d.Text.getD EmptyRope)
    else some ro1
  return (ro2, ⟨(d.At.1, d.At.1 + d.TextLen), deleted⟩)

/-- `Diffs.Apply`: applies each diff in order; the undo of the i-th applied
diff is stored at index `len-1-i`, i.e. the undo list is in reverse
application order. -/
def DiffsApply : List Diff → Rope → Option (Rope × List Diff)
  | [], ro => some (ro, [])
  | d :: ds, ro => do
    let (ro1, u) ← d.Apply ro
    let (ro2, us) ← DiffsApply ds ro1
    return (ro2, us ++ [u])

/-! ### Success bounds: a rope operation that returns `some` was in range. -/

theorem split_isSome_bounds {r : Rope} {i : Int} {p : Rope × Rope}
    (h : split r i = some p) : 0 ≤ i ∧ i ≤ (r.len : Int) := by
  by_contra hc
  rw [split_none (by omega)] at h
  exact Option.noConfusion h

theorem Slice_isSome_bounds {r : Rope} {start e : Int} {x : Rope}
    (h : Slice r start e = some x) :
    0 ≤ start ∧ start ≤ e ∧ e ≤ (r.len : Int) := by
  unfold Slice at h
  cases hs : split r start with
  | none => rw [hs] at h; exact Option.noConfusion h
  | some p =>
    obtain ⟨a, r1⟩ := p
    rw [hs] at h
    simp only [Option.bind_eq_bind, Option.some_bind] at h
    have hb1 := split_isSome_bounds hs
    have hr1 : (r1.len : Int) = (r.len : Int) - start := by
      obtain ⟨_, htb⟩ := split_parts hb1.1 hb1.2 hs
      have := toList_length r1
      rw [htb] at this
      simp [toList_length] at this
      omega
    cases hs2 : split r1 (e - start) with
    | none => rw [hs2] at h; exact Option.noConfusion h
    | some q =>
      have hb2 := split_isSome_bounds hs2
      omega

theorem Delete_isSome_bounds {r : Rope} {start n : Int} {x : Rope}
    (h : Delete r start n = some x) :
    0 ≤ start ∧ 0 ≤ n ∧ start + n ≤ (r.len : Int) := by
  unfold Delete at h
  cases hs : split r start with
  | none => rw [hs] at h; exact Option.noConfusion h
  | some p =>
    obtain ⟨r1, l⟩ := p
    rw [hs] at h
    simp only [Option.bind_eq_bind, Option.some_bind] at h
    have hb1 := split_isSome_bounds hs
    have hr1 : (r1.len : Int) = start := split_fst_len hb1.1 hb1.2 hs
    have hl : (l.len : Int) = (r.len : Int) - start := by
      obtain ⟨_, htb⟩ := split_parts hb1.1 hb1.2 hs
      have := toList_length l
      rw [htb] at this
      simp [toList_length] at this
      omega
    cases hs2 : split l (start + n - r1.len) with
    | none => rw [hs2] at h; exact Option.noConfusion h
    | some q =>
      have hb2 := split_isSome_bounds hs2
      omega

theorem Insert_isSome_bounds {r : Rope} {i : Int} {ins : Rope} {x : Rope}
    (h : Insert r i ins = some x) : 0 ≤ i ∧ i ≤ (r.len : Int) := by
  unfold Insert at h
  cases hs : split r i with
  | none => rw [hs] at h; exact Option.noConfusion h
  | some p => exact split_isSome_bounds hs

theorem Slice_toList_of_some {r x : Rope} {start e : Int}
    (h : Slice r start e = some x) :
    x.toList = (r.toList.drop start.toNat).take (e - start).toNat := by
  obtain ⟨h0, h1, h2⟩ := Slice_isSome_bounds h
  have := Slice_toList h0 h1 h2
  rw [h] at this
  simpa using this

theorem Delete_toList_of_some {r x : Rope} {start n : Int}
    (h : Delete r start n = some x) :
    x.toList = r.toList.take start.toNat ++ r.toList.drop (start + n).toNat := by
  obtain ⟨h0, h1, h2⟩ := Delete_isSome_bounds h
  have := Delete_toList h0 h1 h2
  rw [h] at this
  simpa using this

theorem Insert_toList_of_some {r ins x : Rope} {i : Int}
    (h : Insert r i ins = some x) :
    x.toList = r.toList.take i.toNat ++ ins.toList ++ r.toList.drop i.toNat := by
  obtain ⟨h0, h1⟩ := Insert_isSome_bounds h
  have := @Insert_toList r i ins h0 h1
  rw [h] at this
  simpa using this

/-! ### List bookkeeping helpers for the undo law -/

theorem take_app_of_len {x y : List Nat} {n : Nat} (h : n ≤ x.length) :
    (x.take n ++ y).take n = x.take n := by
  rw [List.take_append_eq_append_take]
  have hl : (x.take n).length = n := by simp; omega
  rw [hl]
  simp

theorem drop_app_of_len {x y : List Nat} {n : Nat} (h : n ≤ x.length) :
    (x.take n ++ y).drop n = y := by
  have hl : (x.take n).length = n := by simp; omega
  exact List.drop_left' hl

theorem drop_app_add {x y : List Nat} {n k : Nat} (h : n ≤ x.length) :
    (x.take n ++ y).drop (n + k) = y.drop k := by
  rw [List.drop_append_eq_append_drop]
  have hl : (x.take n).length = n := by simp; omega
  rw [hl]
  have : (x.take n).drop (n + k) = [] := by
    apply List.drop_eq_nil_of_le
    simp only [List.length_take]
    omega
  rw [this, List.nil_append]
  congr 1
  omega

theorem take_mid_drop {x : List Nat} {a b : Nat} (h1 : a ≤ b) :
    x.take a ++ ((x.drop a).take (b - a) ++ x.drop b) = x := by
  have hb : x.drop b = (x.drop a).drop (b - a) := by
    rw [List.drop_drop]
    congr 1
    omega
  rw [hb, List.take_append_drop, List.take_append_drop]

theorem map_toList_some {o : Option Rope} {L : List Nat}
    (h : o.map Rope.toList = some L) : ∃ x, o = some x ∧ x.toList = L := by
  cases o with
  | none => simp at h
  | some x => exact ⟨x, rfl, by simpa using h⟩

theorem Slice_some {r : Rope} {start e : Int}
    (h0 : 0 ≤ start) (h1 : start ≤ e) (h2 : e ≤ (r.len : Int)) :
    ∃ x, Slice r start e = some x ∧
      x.toList = (r.toList.drop start.toNat).take (e - start).toNat :=
  map_toList_some (Slice_toList h0 h1 h2)

theorem Delete_some {r : Rope} {start n : Int}
    (h0 : 0 ≤ start) (h1 : 0 ≤ n) (h2 : start + n ≤ (r.len : Int)) :
    ∃ x, Delete r start n = some x ∧
      x.toList = r.toList.take start.toNat ++ r.toList.drop (start + n).toNat :=
  map_toList_some (Delete_toList h0 h1 h2)

theorem Insert_some {r : Rope} {i : Int} (ins : Rope)
    (h0 : 0 ≤ i) (h1 : i ≤ (r.len : Int)) :
    ∃ x, Insert r i ins = some x ∧
      x.toList = r.toList.take i.toNat ++ ins.toList ++ r.toList.drop i.toNat :=
  map_toList_some (@Insert_toList r i ins h0 h1)

theorem Diff.TextLen_nonneg (d : Diff) : 0 ≤ d.TextLen := by
  unfold Diff.TextLen
  cases d.Text <;> simp

/-- List-level image of `Diff.Apply` (a proof-side abbreviation, not a
source function): the content of the rope produced by a successful apply. -/
def applyList (d : Diff) (s : List Nat) : List Nat :=
  s.take d.At.1.toNat
    ++ (if 0 < d.TextLen then (d.Text.getD EmptyRope).toList else [])
    ++ s.drop (if d.At.1 < d.At.2 then d.At.2 else d.At.1).toNat

/-- List-level content of the deleted text recorded in the undo diff
(a proof-side abbreviation). -/
def undoText (d : Diff) (s : List Nat) : Option (List Nat) :=
  if d.At.1 < d.At.2 then
    some ((s.drop d.At.1.toNat).take (d.At.2 - d.At.1).toNat)
  else none

/-- The in-bounds condition under which `Diff.Apply` succeeds. -/
def applyInBounds (d : Diff) (ro : Rope) : Prop :=
  if d.At.1 < d.At.2 then 0 ≤ d.At.1 ∧ d.At.2 ≤ (ro.len : Int)
  else 0 < d.TextLen → 0 ≤ d.At.1 ∧ d.At.1 ≤ (ro.len : Int)

theorem Diff.Apply_char {d : Diff} {ro : Rope} (hb : applyInBounds d ro) :
    ∃ ro2 u, d.Apply ro = some (ro2, u) ∧
      ro2.toList = applyList d ro.toList ∧
      u.At = (d.At.1, d.At.1 + d.TextLen) ∧
      u.Text.map Rope.toList = undoText d ro.toList := by
  unfold applyInBounds at hb
  have hsL : ro.toList.length = ro.len := toList_length ro
  by_cases hd : d.At.1 < d.At.2
  · rw [if_pos hd] at hb
    obtain ⟨h0, h2⟩ := hb
    obtain ⟨sl, hsl, hslL⟩ := @Slice_some ro d.At.1 d.At.2 h0 (le_of_lt hd) h2
    obtain ⟨ro1, hde, hdeL⟩ :=
      @Delete_some ro d.At.1 (d.At.2 - d.At.1) h0 (by omega) (by omega)
    have hBe : d.At.1 + (d.At.2 - d.At.1) = d.At.2 := by ring
    rw [hBe] at hdeL
    have hro1len : (ro1.len : Int) = (ro.len : Int) - (d.At.2 - d.At.1) := by
      have hl := toList_length ro1
      rw [hdeL] at hl
      simp only [List.length_append, List.length_take, List.length_drop, hsL] at hl
      omega
    by_cases ht : 0 < d.TextLen
    · obtain ⟨ro2, hins, hinsL⟩ :=
        @Insert_some ro1 d.At.1 (d.Text.getD EmptyRope) h0 (by omega)
      refine ⟨ro2, ⟨(d.At.1, d.At.1 + d.TextLen), some sl⟩, ?_, ?_, rfl, ?_⟩
      · unfold Diff.Apply
        rw [if_pos hd, hsl, hde]
        simp only [Option.bind_eq_bind, Option.some_bind, if_pos ht, hins,
          Option.pure_def]
      · rw [hinsL, hdeL, applyList, if_pos ht, if_pos hd]
        rw [take_app_of_len (by omega), drop_app_of_len (by omega)]
      · rw [undoText, if_pos hd]
        simpa using hslL
    · refine ⟨ro1, ⟨(d.At.1, d.At.1 + d.TextLen), some sl⟩, ?_, ?_, rfl, ?_⟩
      · unfold Diff.Apply
        rw [if_pos hd, hsl, hde]
        simp only [Option.bind_eq_bind, Option.some_bind, if_neg ht,
          Option.pure_def]
      · rw [hdeL, applyList, if_neg ht, if_pos hd]
        simp
      · rw [undoText, if_pos hd]
        simpa using hslL
  · rw [if_neg hd] at hb
    by_cases ht : 0 < d.TextLen
    · obtain ⟨h0, h1⟩ := hb ht
      obtain ⟨ro2, hins, hinsL⟩ :=
        @Insert_some ro d.At.1 (d.Text.getD EmptyRope) h0 h1
      refine ⟨ro2, ⟨(d.At.1, d.At.1 + d.TextLen), none⟩, ?_, ?_, rfl, ?_⟩
      · unfold Diff.Apply
        rw [if_neg hd]
        simp only [Option.bind_eq_bind, Option.some_bind, if_pos ht, hins,
          Option.pure_def]
      · rw [hinsL, applyList, if_pos ht, if_neg hd]
      · rw [undoText, if_neg hd]
        rfl
    · refine ⟨ro, ⟨(d.At.1, d.At.1 + d.TextLen), none⟩, ?_, ?_, rfl, ?_⟩
      · unfold Diff.Apply
        rw [if_neg hd]
        simp only [Option.bind_eq_bind, Option.some_bind, if_neg ht,
          Option.pure_def]
      · rw [applyList, if_neg ht, if_neg hd]
        simp
      · rw [undoText, if_neg hd]
        rfl

theorem Diff.Apply_isSome_bounds {d : Diff} {ro : Rope} {x : Rope × Diff}
    (h : d.Apply ro = some x) : applyInBounds d ro := by
  unfold Diff.Apply at h
  unfold applyInBounds
  by_cases hd : d.At.1 < d.At.2
  · rw [if_pos hd] at h ⊢
    cases hsl : Slice ro d.At.1 d.At.2 with
    | none => rw [hsl] at h; simp at h
    | some sl =>
      have hbs := Slice_isSome_bounds hsl
      exact ⟨hbs.1, hbs.2.2⟩
  · rw [if_neg hd] at h ⊢
    intro ht
    simp only [Option.bind_eq_bind, Option.some_bind, if_pos ht] at h
    cases hins : Insert ro d.At.1 (d.Text.getD EmptyRope) with
    | none => rw [hins] at h; simp at h
    | some ro2 => exact Insert_isSome_bounds hins

theorem textIte_length (d : Diff) :
    (((if 0 < d.TextLen then (d.Text.getD EmptyRope).toList else []) :
        List Nat).length : Int) = d.TextLen := by
  by_cases ht : 0 < d.TextLen
  · rw [if_pos ht]
    cases hut : d.Text with
    | none => simp [Diff.TextLen, hut] at ht
    | some t => simp [hut, toList_length, Diff.TextLen]
  · rw [if_neg ht]
    have := Diff.TextLen_nonneg d
    simp
    omega

/-- The undo diff produced by `Diff.Apply` undoes the change: applied to any
rope with the content of the result, it restores the original content. -/
theorem Diff.Apply_undo {d : Diff} {ro ro2 ro2' : Rope} {u : Diff}
    (h : d.Apply ro = some (ro2, u)) (hcong : ro2'.toList = ro2.toList) :
    ∃ ro3 u', u.Apply ro2' = some (ro3, u') ∧ ro3.toList = ro.toList := by
  have hb := Diff.Apply_isSome_bounds h
  obtain ⟨ro2v, uv, happ, hcontent, huAt, huText⟩ := Diff.Apply_char hb
  rw [happ, Option.some_inj] at h
  have he1 : ro2v = ro2 := congrArg Prod.fst h
  have he2 : uv = u := congrArg Prod.snd h
  subst he1
  subst he2
  have hsL : ro.toList.length = ro.len := toList_length ro
  have hcong' : ro2'.toList = applyList d ro.toList := by rw [hcong, hcontent]
  have hlen2 : (ro2'.len : Int) = ((applyList d ro.toList).length : Int) := by
    rw [← toList_length, hcong']
  have huA1 : uv.At.1 = d.At.1 := by rw [huAt]
  have huA2 : uv.At.2 = d.At.1 + d.TextLen := by rw [huAt]
  have htlnn := Diff.TextLen_nonneg d
  have hutlnn := Diff.TextLen_nonneg uv
  have hutl : uv.TextLen = (((undoText d ro.toList).getD []).length : Int) := by
    cases hut : uv.Text with
    | none =>
      rw [hut, Option.map_none'] at huText
      simp [Diff.TextLen, hut, ← huText]
    | some t =>
      rw [hut, Option.map_some'] at huText
      simp [Diff.TextLen, hut, ← huText, toList_length]
  have hgid : 0 < uv.TextLen →
      (uv.Text.getD EmptyRope).toList = (undoText d ro.toList).getD [] := by
    intro h'
    cases hut : uv.Text with
    | none => simp [Diff.TextLen, hut] at h'
    | some t =>
      rw [hut, Option.map_some'] at huText
      simp [hut, ← huText]
  have hT' : (if 0 < d.TextLen then (d.Text.getD EmptyRope).toList else
      ([] : List Nat)).length = d.TextLen.toNat := by
    have := textIte_length d
    omega
  by_cases hd : d.At.1 < d.At.2
  · -- the diff deleted [At.1, At.2); the undo re-inserts the deleted text
    have hb' : 0 ≤ d.At.1 ∧ d.At.2 ≤ (ro.len : Int) := by
      unfold applyInBounds at hb
      rwa [if_pos hd] at hb
    obtain ⟨h0, h2⟩ := hb'
    have hUT : undoText d ro.toList
        = some ((ro.toList.drop d.At.1.toNat).take (d.At.2 - d.At.1).toNat) := by
      rw [undoText, if_pos hd]
    have hUTlen : uv.TextLen = d.At.2 - d.At.1 := by
      rw [hutl, hUT]
      simp only [Option.getD_some, List.length_take, List.length_drop]
      omega
    have hALlen : ((applyList d ro.toList).length : Int)
        = (ro.len : Int) - (d.At.2 - d.At.1) + d.TextLen := by
      have hti := textIte_length d
      rw [applyList, if_pos hd]
      simp only [List.length_append, List.length_take, List.length_drop]
      omega
    have hb2 : applyInBounds uv ro2' := by
      unfold applyInBounds
      by_cases hu : uv.At.1 < uv.At.2
      · rw [if_pos hu, huA1, huA2]
        rw [huA1, huA2] at hu
        omega
      · rw [if_neg hu, huA1]
        intro h'
        omega
    obtain ⟨ro3, u', happ2, hcontent2, _, _⟩ := Diff.Apply_char hb2
    refine ⟨ro3, u', happ2, ?_⟩
    rw [hcontent2, hcong']
    rw [applyList, huA1, huA2, applyList, if_pos hd]
    have hDeq : (if 0 < uv.TextLen then (uv.Text.getD EmptyRope).toList else [])
        = (ro.toList.drop d.At.1.toNat).take (d.At.2 - d.At.1).toNat := by
      rw [if_pos (by omega), hgid (by omega), hUT]
      rfl
    rw [hDeq]
    have e2 : (d.At.2 - d.At.1).toNat = d.At.2.toNat - d.At.1.toNat := by omega
    by_cases ht : 0 < d.TextLen
    · rw [if_pos (show d.At.1 < d.At.1 + d.TextLen by omega)]
      have e1 : (d.At.1 + d.TextLen).toNat = d.At.1.toNat + d.TextLen.toNat := by
        omega
      rw [e1]
      simp only [List.append_assoc]
      rw [take_app_of_len (by omega), drop_app_add (by omega),
        List.drop_left' hT', e2]
      exact take_mid_drop (by omega)
    · rw [if_neg (show ¬d.At.1 < d.At.1 + d.TextLen by omega)]
      rw [if_neg ht]
      simp only [List.append_nil, List.append_assoc]
      rw [take_app_of_len (by omega), drop_app_of_len (by omega), e2]
      exact take_mid_drop (by omega)
  · -- no deletion: the undo deletes the inserted text (or is a no-op)
    have hUT : undoText d ro.toList = none := by rw [undoText, if_neg hd]
    have hUTlen : uv.TextLen = 0 := by rw [hutl, hUT]; rfl
    have hDeq : (if 0 < uv.TextLen then (uv.Text.getD EmptyRope).toList else [])
        = ([] : List Nat) := by
      rw [if_neg (by omega)]
    by_cases ht : 0 < d.TextLen
    · have hb' : 0 ≤ d.At.1 ∧ d.At.1 ≤ (ro.len : Int) := by
        unfold applyInBounds at hb
        rw [if_neg hd] at hb
        exact hb ht
      obtain ⟨h0, h1⟩ := hb'
      have hALlen : ((applyList d ro.toList).length : Int)
          = (ro.len : Int) + d.TextLen := by
        have hti := textIte_length d
        rw [applyList, if_neg hd]
        simp only [List.length_append, List.length_take, List.length_drop]
        omega
      have hb2 : applyInBounds uv ro2' := by
        unfold applyInBounds
        rw [if_pos (by rw [huA1, huA2]; omega), huA1, huA2]
        omega
      obtain ⟨ro3, u', happ2, hcontent2, _, _⟩ := Diff.Apply_char hb2
      refine ⟨ro3, u', happ2, ?_⟩
      rw [hcontent2, hcong']
      rw [applyList, huA1, huA2, applyList, if_neg hd, hDeq]
      rw [if_pos (show d.At.1 < d.At.1 + d.TextLen by omega)]
      have e1 : (d.At.1 + d.TextLen).toNat = d.At.1.toNat + d.TextLen.toNat := by
        omega
      rw [e1]
      simp only [List.nil_append, List.append_assoc]
      rw [take_app_of_len (by omega), drop_app_add (by omega),
        List.drop_left' hT']
      exact List.take_append_drop d.At.1.toNat ro.toList
    · have hb2 : applyInBounds uv ro2' := by
        unfold applyInBounds
        rw [if_neg (by rw [huA1, huA2]; omega)]
        intro h'
        omega
      obtain ⟨ro3, u', happ2, hcontent2, _, _⟩ := Diff.Apply_char hb2
      refine ⟨ro3, u', happ2, ?_⟩
      rw [hcontent2, hcong']
      rw [applyList, huA1, huA2, applyList, if_neg hd, hDeq]
      rw [if_neg (show ¬d.At.1 < d.At.1 + d.TextLen by omega)]
      rw [if_neg ht]
      simp only [List.append_nil, List.nil_append, List.take_append_drop]

theorem DiffsApply_append (xs ys : List Diff) (ro : Rope) :
    DiffsApply (xs ++ ys) ro =
      (DiffsApply xs ro).bind fun p =>
        (DiffsApply ys p.1).map fun q => (q.1, q.2 ++ p.2) := by
  induction xs generalizing ro with
  | nil =>
    simp only [List.nil_append, DiffsApply]
    cases hys : DiffsApply ys ro with
    | none => simp [hys]
    | some q => simp [hys]
  | cons d ds ih =>
    simp only [List.cons_append, DiffsApply]
    cases happ : d.Apply ro with
    | none => simp
    | some p =>
      obtain ⟨ro1, u⟩ := p
      simp only [Option.bind_eq_bind, Option.some_bind]
      simp only [List.append_eq]
      rw [ih]
      cases hds : DiffsApply ds ro1 with
      | none => simp
      | some q =>
        obtain ⟨ro2, us⟩ := q
        simp only [Option.bind_eq_bind, Option.some_bind]
        cases hys : DiffsApply ys ro2 with
        | none => simp [hys]
        | some w => simp [hys]

theorem DiffsApply_undo {ds : List Diff} {ro ro2 : Rope} {us : List Diff}
    (h : DiffsApply ds ro = some (ro2, us)) :
    ∀ ro2' : Rope, ro2'.toList = ro2.toList →
      ∃ ro3 us', DiffsApply us ro2' = some (ro3, us') ∧ ro3.toList = ro.toList := by
  induction ds generalizing ro ro2 us with
  | nil =>
    intro ro2' hc
    rw [DiffsApply, Option.some_inj] at h
    have e1 : ro = ro2 := congrArg Prod.fst h
    have e2 : ([] : List Diff) = us := congrArg Prod.snd h
    refine ⟨ro2', [], ?_, ?_⟩
    · rw [← e2, DiffsApply]
    · rw [hc, ← e1]
  | cons d ds ih =>
    intro ro2' hc
    rw [DiffsApply] at h
    cases happ : d.Apply ro with
    | none => rw [happ] at h; simp at h
    | some p =>
      obtain ⟨ro1, u⟩ := p
      rw [happ] at h
      simp only [Option.bind_eq_bind, Option.some_bind] at h
      cases hds : DiffsApply ds ro1 with
      | none => rw [hds] at h; simp at h
      | some q =>
        obtain ⟨ro2x, usx⟩ := q
        rw [hds] at h
        simp only [Option.some_bind, Option.pure_def, Option.some_inj] at h
        have e1 : ro2x = ro2 := congrArg Prod.fst h
        have e2 : usx ++ [u] = us := congrArg Prod.snd h
        obtain ⟨rmid, usmid, hmid, hmidL⟩ := ih hds ro2' (by rw [hc, ← e1])
        obtain ⟨ro3, u'', hu3, hu3L⟩ := Diff.Apply_undo happ hmidL
        refine ⟨ro3, u'' :: ([] ++ usmid), ?_, hu3L⟩
        rw [← e2, DiffsApply_append, hmid]
        simp only [Option.bind_eq_bind, Option.some_bind, DiffsApply, hu3]
        simp

/-! ## Claims C1 - C4 -/

/-- C1: for every rope `R` and every `Diffs` `D` whose diffs apply in-bounds
(`Diffs.Apply` returns `R2` together with the undo list `U`, collected in
reverse application order), applying `U` to `R2` yields a rope whose
`String()` equals `R.String()`: the undo exactly reconstructs the original. -/
theorem c1_diffs_apply_undo_reconstructs {D : List Diff} {R R2 : Rope}
    {U : List Diff} (h : DiffsApply D R = some (R2, U)) :
    ∃ R3 U', DiffsApply U R2 = some (R3, U') ∧ R3.toList = R.toList :=
  DiffsApply_undo h R2 rfl

theorem c1_witness :
    ∃ R3 U', DiffsApply [⟨(0, 1), some (NewRope [97])⟩] (NewRope [120, 98])
        = some (R3, U') ∧ R3.toList = (NewRope [97, 98]).toList :=
  @c1_diffs_apply_undo_reconstructs [⟨(0, 1), some (NewRope [120])⟩]
    (NewRope [97, 98]) (NewRope [120, 98]) [⟨(0, 1), some (NewRope [97])⟩]
    (by decide)

/-- C2 (evaluation at the failing input): for the diff
`{At: [5,10), Text: "1234567890"}` (ten bytes) and a dot equal to exactly
the diff's range, the source `Diff.Update` collapses the dot to `[5,5)`
(case "a suffix of dot" fires), not to `[newEnd,newEnd) = [15,15)` as the
claim - and the repository's own `TestDiffs_Update` cases "grow exactly
dot" (want `{15,15}`) and "grow over all of dot" (want `{14,14}`) -
require.  The second conjunct evaluates the claim's `newEnd`:
`d.At[0] + d.TextLen() = 15 ≠ 5`. -/
theorem c2_update_exact_dot_eval :
    DiffsUpdate [⟨(5, 10), some (NewRope (List.replicate 10 49))⟩] (5, 10)
        = (5, 5)
      ∧ (⟨(5, 10), some (NewRope (List.replicate 10 49))⟩ : Diff).At.1
          + (⟨(5, 10), some (NewRope (List.replicate 10 49))⟩ : Diff).TextLen
          = 15 := by
  decide

/-- C3: the rope editing laws.  For in-range indices:
`Delete(r,start,n).String() = r.String()[:start] + r.String()[start+n:]`,
`Insert(r,i,New(s)).String() = r.String()[:i] + s + r.String()[i:]`, and
`Slice(r,a,b).String() = r.String()[a:b]`. -/
theorem c3_delete_insert_slice (r : Rope) :
    (∀ start n : Int, 0 ≤ start → 0 ≤ n → start + n ≤ (r.len : Int) →
      (Delete r start n).map Rope.toList
        = some (r.toList.take start.toNat ++ r.toList.drop (start + n).toNat)) ∧
    (∀ (i : Int) (s : List Nat), 0 ≤ i → i ≤ (r.len : Int) →
      (Insert r i (NewRope s)).map Rope.toList
        = some (r.toList.take i.toNat ++ s ++ r.toList.drop i.toNat)) ∧
    (∀ a b : Int, 0 ≤ a → a ≤ b → b ≤ (r.len : Int) →
      (Slice r a b).map Rope.toList
        = some ((r.toList.drop a.toNat).take (b - a).toNat)) := by
  refine ⟨?_, ?_, ?_⟩
  · intro start n h0 h1 h2
    exact Delete_toList h0 h1 h2
  · intro i s h0 h1
    exact @Insert_toList r i (NewRope s) h0 h1
  · intro a b h0 h1 h2
    exact Slice_toList h0 h1 h2

theorem c3_witness :
    (Delete (NewRope [1, 2, 3]) 1 1).map Rope.toList = some [1, 3] := by
  rw [(c3_delete_insert_slice (NewRope [1, 2, 3])).1 1 1
    (by decide) (by decide) (by decide)]
  decide

/-- C4: `New(s).String() = s`; and for every rope `r` and `0 ≤ i ≤ r.Len()`,
`Split(r, i)` succeeds without panicking, returns `left` of length `i` and
`right` of length `r.Len() - i`, and `Append(left, right).String()` equals
`r.String()`. -/
theorem c4_new_split_append (s : List Nat) (r : Rope) (i : Int)
    (h0 : 0 ≤ i) (h1 : i ≤ (r.len : Int)) :
    (NewRope s).toList = s ∧
    ∃ l ri, Split r i = some (l, ri) ∧ (l.len : Int) = i ∧
      (ri.len : Int) = (r.len : Int) - i ∧
      (Append l ri).toList = r.toList := by
  refine ⟨rfl, ?_⟩
  obtain ⟨a, b, heq, hta, htb⟩ := split_some h0 h1
  refine ⟨a, b, heq, split_fst_len h0 h1 heq, ?_, ?_⟩
  · have hl := toList_length b
    rw [htb] at hl
    simp [toList_length] at hl
    omega
  · rw [Append_toList, hta, htb, List.take_append_drop]

theorem c4_witness :
    (NewRope [5]).toList = [5] ∧
    ∃ l ri, Split (Rope.node (.leaf [1]) (.leaf [2, 3])) 2 = some (l, ri) ∧
      (l.len : Int) = 2 ∧
      (ri.len : Int) = ((Rope.node (.leaf [1]) (.leaf [2, 3])).len : Int) - 2 ∧
      (Append l ri).toList = (Rope.node (.leaf [1]) (.leaf [2, 3])).toList :=
  @c4_new_split_append [5] (Rope.node (.leaf [1]) (.leaf [2, 3])) 2
    (by decide) (by decide)

/-! ## Go unicode/utf8 (DecodeRune, DecodeLastRune, RuneLen)

Bytes are `Nat`s; real rope content always holds values `< 256`. -/

/-- `utf8.RuneError`, the Unicode replacement character U+FFFD. -/
def RuneError : Int := 0xFFFD

/-- `utf8.DecodeRune`: decodes the first rune of a byte sequence, returning
the rune and its byte width.  Invalid, empty, or short input yields
`(RuneError, 1)` (`(RuneError, 0)` when empty), exactly as in Go
(first-byte table plus `acceptRanges`, shortest-form and surrogate checks). -/
def decodeRune : List Nat → Int × Nat
  | [] => (RuneError, 0)
  | b0 :: rest =>
    if b0 < 0x80 then ((b0 : Int), 1)
    else if b0 < 0xC2 then (RuneError, 1)
    else if b0 ≤ 0xDF then
      match rest with
      | b1 :: _ =>
        if 0x80 ≤ b1 ∧ b1 ≤ 0xBF then
          (((b0 - 0xC0) * 0x40 + (b1 - 0x80) : Nat), 2)
        else (RuneError, 1)
      | [] => (RuneError, 1)
    else if b0 ≤ 0xEF then
      let lo := if b0 = 0xE0 then 0xA0 else 0x80
      let hi := if b0 = 0xED then 0x9F else 0xBF
      match rest with
      | b1 :: b2 :: _ =>
        if lo ≤ b1 ∧ b1 ≤ hi ∧ 0x80 ≤ b2 ∧ b2 ≤ 0xBF then
          (((b0 - 0xE0) * 0x1000 + (b1 - 0x80) * 0x40 + (b2 - 0x80) : Nat), 3)
        else (RuneError, 1)
      | _ => (RuneError, 1)
    else if b0 ≤ 0xF4 then
      let lo := if b0 = 0xF0 then 0x90 else 0x80
      let hi := if b0 = 0xF4 then 0x8F else 0xBF
      match rest with
      | b1 :: b2 :: b3 :: _ =>
        if lo ≤ b1 ∧ b1 ≤ hi ∧ 0x80 ≤ b2 ∧ b2 ≤ 0xBF ∧ 0x80 ≤ b3 ∧ b3 ≤ 0xBF then
          (((b0 - 0xF0) * 0x40000 + (b1 - 0x80) * 0x1000
            + (b2 - 0x80) * 0x40 + (b3 - 0x80) : Nat), 4)
        else (RuneError, 1)
      | _ => (RuneError, 1)
    else (RuneError, 1)

/-- `utf8.RuneStart`: `b & 0xC0 != 0x80` (for byte values `< 256`). -/
def RuneStart (b : Nat) : Bool := ¬(0x80 ≤ b ∧ b ≤ 0xBF)

/-- The backwards scan of `utf8.DecodeLastRune`: from `start` down to `lim`,
stop at the first rune-start byte; ends at `lim - 1` if none is found.
The loop runs at most 4 times (`start - lim ≤ 3` at the call site), so any
`fuel ≥ 5` computes the exact Go result. -/
def lastStartLoop (p : List Nat) (lim : Int) : Int → Nat → Int
  | start, 0 => start
  | start, fuel + 1 =>
    if start ≥ lim then
      if RuneStart (p.getD start.toNat 0) then start
      else lastStartLoop p lim (start - 1) fuel
    else start

/-- `utf8.DecodeLastRune`: decodes the final rune of a byte sequence. -/
def decodeLastRune (p : List Nat) : Int × Nat :=
  if p.length = 0 then (RuneError, 0)
  else
    let e := p.length
    let last := p.getD (e - 1) 0
    if last < 0x80 then ((last : Int), 1)
    else
      let lim : Int := if (e : Int) - 4 < 0 then 0 else (e : Int) - 4
      let start0 := lastStartLoop p lim ((e : Int) - 2) 5
      let start := if start0 < 0 then 0 else start0
      let rs := decodeRune (p.drop start.toNat)
      if start + (rs.2 : Int) ≠ (e : Int) then (RuneError, 1)
      else rs

/-- `utf8.RuneLen`. -/
def runeLen (r : Int) : Int :=
  if r < 0 then -1
  else if r ≤ 0x7F then 1
  else if r ≤ 0x7FF then 2
  else if 0xD800 ≤ r ∧ r ≤ 0xDFFF then -1
  else if r ≤ 0xFFFF then 3
  else if r ≤ 0x10FFFF then 4
  else -1

/-- `invalidUTF8`: whether the first rune of the bytes decodes to
`RuneError` (note: a literal U+FFFD also satisfies this, as in Go). -/
def invalidUTF8 (p : List Nat) : Bool := (decodeRune p).1 = RuneError

/-! ## Rope readers (rope/rope.go `Reader`, `ReverseReader`)

The iterator stack `todo` keeps its top at the head (Go appends/pops at the
slice's end).  `buf` is the 4-byte rune buffer, always of length 4; `n` is
the count of valid buffered bytes.  Stale bytes beyond `n` persist, exactly
as in the Go array. -/

/-- Number of tree cells, for termination of the leaf iterator. -/
def Rope.size : Rope → Nat
  | .leaf _ => 1
  | .node l r => l.size + r.size + 1

def sizeSum (todo : List Rope) : Nat := (todo.map Rope.size).sum

/-- The descent inside `next`: walk to the first (or, reversed, last) leaf,
pushing the other children. -/
def nextLeaf : Rope → List Rope → Bool → List Nat × List Rope
  | .leaf t, rest, _ => (t, rest)
  | .node l r, rest, rev =>
    if rev then nextLeaf r (l :: rest) rev
    else nextLeaf l (r :: rest) rev

theorem nextLeaf_size (r : Rope) (rest : List Rope) (rev : Bool) :
    sizeSum (nextLeaf r rest rev).2 < r.size + sizeSum rest := by
  induction r generalizing rest with
  | leaf t => simp [nextLeaf, Rope.size]
  | node l r ihl ihr =>
    rw [nextLeaf]
    by_cases hrev : rev
    · rw [if_pos hrev]
      have := ihr (l :: rest)
      simp [sizeSum, Rope.size] at *
      omega
    · rw [if_neg hrev]
      have := ihl (r :: rest)
      simp [sizeSum, Rope.size] at *
      omega

/-- The `for len(r.text) == 0 { next... }` loop of `read`: produce the next
non-empty leaf text, or `none` at end of data.  Each pass pops one rope and
pushes only its descendants, so `sizeSum todo + 1` fuel always suffices
(callers pass exactly that); the `0` case is unreachable at the call sites. -/
def readLoop : List Nat → List Rope → Bool → Nat → Option (List Nat × List Rope)
  | _, _, _, 0 => none
  | text, todo, rev, fuel + 1 =>
    if text.isEmpty then
      match todo with
      | [] => none
      | r :: rest =>
        let p := nextLeaf r rest rev
        readLoop p.1 p.2 rev fuel
    else some (text, todo)

structure Reader where
  todo : List Rope
  text : List Nat
  buf : List Nat
  n : Nat
deriving DecidableEq, Repr

/-- `NewReader`. -/
def NewReader (ro : Rope) : Reader := ⟨[ro], [], [0, 0, 0, 0], 0⟩

/-- `Reader.read`: fills up to `cap` bytes from the iterator (one leaf at a
time); empty result is `io.EOF`. -/
def Reader.read (rd : Reader) (cap : Nat) : List Nat × Reader :=
  match readLoop rd.text rd.todo false (sizeSum rd.todo + 1) with
  | none => ([], { rd with text := [], todo := [] })
  | some (t, todo') => (t.take cap, { rd with text := t.drop cap, todo := todo' })

/-- Result of `ReadRune`: a rune with its width, end of data, or a runtime
panic (out-of-range slice). -/
inductive RuneRead where
  | panicked
  | eofR
  | ok (r : Int) (w : Nat)
deriving DecidableEq, Repr

/-- The `for invalidUTF8(r.buf[:r.n]) && r.n < len(r.buf)` fill loop of
`Reader.ReadRune`.  Each pass reads at least one byte or stops at EOF, so
the loop runs at most 4 times; `fuel ≥ 5` makes the recursion total. -/
def Reader.fillLoop : Reader → Nat → Reader
  | rd, 0 => rd
  | rd, fuel + 1 =>
    if invalidUTF8 (rd.buf.take rd.n) ∧ rd.n < 4 then
      let gr := rd.read (4 - rd.n)
      if gr.1.isEmpty then gr.2
      else
        Reader.fillLoop
          { gr.2 with
            buf := rd.buf.take rd.n ++ gr.1 ++ rd.buf.drop (rd.n + gr.1.length),
            n := rd.n + gr.1.length }
          fuel
    else rd

/-- `Reader.ReadRune`.  After the fill loop, Go decodes the whole 4-byte
array (`utf8.DecodeRune(r.buf[:])`, stale bytes included) and then executes
`r.n = copy(r.buf[:], r.buf[w:r.n])`; when `w > r.n` the slice expression
`r.buf[w:r.n]` panics at run time, modelled by `RuneRead.panicked`. -/
def Reader.ReadRune (rd : Reader) : RuneRead × Reader :=
  let rd1 := rd.fillLoop 5
  if rd1.n = 0 then (.eofR, rd1)
  else
    let rs := decodeRune rd1.buf
    if rd1.n < rs.2 then (.panicked, rd1)
    else
      (.ok rs.1 rs.2,
        { rd1 with
          buf := (rd1.buf.drop rs.2).take (rd1.n - rs.2)
            ++ rd1.buf.drop (rd1.n - rs.2),
          n := rd1.n - rs.2 })

/-- `Reader.ReadByte` (via `Read` with a 1-byte buffer). -/
def Reader.ReadByte (rd : Reader) : Option Nat × Reader :=
  if 0 < rd.n then
    (some (rd.buf.headD 0),
      { rd with buf := rd.buf.drop 1 ++ [rd.buf.getD 3 0], n := rd.n - 1 })
  else
    let gr := rd.read 1
    match gr.1 with
    | [] => (none, gr.2)
    | b :: _ => (some b, gr.2)

structure RevReader where
  todo : List Rope
  text : List Nat
  buf : List Nat
  n : Nat
deriving DecidableEq, Repr

/-- `NewReverseReader`. -/
def NewReverseReader (ro : Rope) : RevReader := ⟨[ro], [], [0, 0, 0, 0], 0⟩

/-- `ReverseReader.read`: `ypocStr` copies up to `cap` bytes reversed from
the end of the current leaf text. -/
def RevReader.read (rd : RevReader) (cap : Nat) : List Nat × RevReader :=
  match readLoop rd.text rd.todo true (sizeSum rd.todo + 1) with
  | none => ([], { rd with text := [], todo := [] })
  | some (t, todo') =>
    let k := min cap t.length
    (t.reverse.take k, { rd with text := t.take (t.length - k), todo := todo' })

/-- The fill loop of `ReverseReader.ReadRune`: shift the buffer right
(`r.buf[1], r.buf[2], r.buf[3] = r.buf[0], r.buf[1], r.buf[2]`), then read
one earlier byte into `r.buf[0]`; on EOF the shift is kept but `n` stays. -/
def RevReader.fillLoop : RevReader → Nat → RevReader
  | rd, 0 => rd
  | rd, fuel + 1 =>
    if invalidUTF8 (rd.buf.take rd.n) ∧ rd.n < 4 then
      let buf1 := rd.buf.headD 0 :: rd.buf.take 3
      let gr := RevReader.read { rd with buf := buf1 } 1
      if gr.1.isEmpty then gr.2
      else RevReader.fillLoop { gr.2 with buf := gr.1 ++ buf1.drop 1, n := gr.2.n + 1 } fuel
    else rd

/-- `ReverseReader.ReadRune`: decode the last rune of `buf[:n]`
(`utf8.DecodeLastRune`) and release its bytes. -/
def RevReader.ReadRune (rd : RevReader) : RuneRead × RevReader :=
  let rd1 := rd.fillLoop 5
  if rd1.n = 0 then (.eofR, rd1)
  else
    let rs := decodeLastRune (rd1.buf.take rd1.n)
    (.ok rs.1 rs.2, { rd1 with n := rd1.n - rs.2 })

/-- `ReverseReader.ReadByte` (via `Read`, which serves buffered bytes from
the end of `buf[:n]` first). -/
def RevReader.ReadByte (rd : RevReader) : Option Nat × RevReader :=
  if 0 < rd.n then
    (some (rd.buf.getD (rd.n - 1) 0), { rd with n := rd.n - 1 })
  else
    let gr := rd.read 1
    match gr.1 with
    | [] => (none, gr.2)
    | b :: _ => (some b, gr.2)

/-! ## Claim C5 -/

/-- C5 (evaluation at the failing input): on the rope holding the bytes
`C3 A9 C3` ("é" followed by a dangling lead byte), the first `ReadRune`
returns 'é' (0xE9, width 2), leaving one buffered byte with the stale bytes
`A9 C3` behind it; the second call fills no further (EOF), decodes the full
4-byte buffer `[C3,A9,C3,00]` as 'é' with width 2 although only 1 valid
byte remains, and `r.n = copy(r.buf[:], r.buf[2:1])` panics with a slice
bounds violation — contradicting the claim (and the method's own doc
comment) that `ReadRune` never panics and answers malformed UTF-8 with
`(RuneError, 1)`. -/
theorem c5_readrune_panic_eval :
    (Reader.ReadRune (NewReader (NewRope [0xC3, 0xA9, 0xC3]))).1 = .ok 0xE9 2
      ∧ (Reader.ReadRune
          (Reader.ReadRune (NewReader (NewRope [0xC3, 0xA9, 0xC3]))).2).1
        = .panicked := by
  decide

/-! ## re1: regular expression compiler (re1/re1.go)

Pattern text is the decoded rune sequence (`List Int`); `eof` is `-1`.
The instruction opcodes are the source's negative constants
(`match = -iota`); a literal rune is its (positive) code point, so the
NUL literal collides with `match` exactly as in Go.  The debug-only
`source` field is omitted (it feeds only `DebugString`). -/

namespace re1

def opMatch : Int := 0
def opAny : Int := -1
def opBol : Int := -2
def opEol : Int := -3
def opClass : Int := -4
def opNclass : Int := -5
def opJmp : Int := -6
def opFork : Int := -7
def opRfork : Int := -8
def opSave : Int := -9

structure Instr where
  op : Int
  arg : Int
deriving DecidableEq, Repr

/-- A compiled `Regexp` (the Go `class` field is `classes` here: `class` is
reserved in Lean). -/
structure Regexp where
  prog : List Instr
  ncap : Nat
  classes : List (List (Int × Int))
deriving DecidableEq, Repr

/-- Compile-time options. The zero value is default. -/
structure Opts where
  Reverse : Bool := false
  Delimiter : Int := 0
deriving DecidableEq, Repr

def next : List Int → Int × List Int
  | [] => (-1, [])
  | r :: t => (r, t)

def peek (t : List Int) : Int := (next t).1

def esc (t : List Int) : Int × List Int :=
  let (r, t') := next t
  if r = -1 then (92, t')
  else if r = 110 then (10, t')
  else if r = 116 then (9, t')
  else (r, t')

def opProg (op : Int) : Regexp := ⟨[⟨op, 0⟩], 0, []⟩

def charClassProg (op : Int) (cl : List (Int × Int)) : Regexp :=
  ⟨[⟨op, 0⟩], 0, [cl]⟩

/-- `catProg`: renumber the right program's `save` slots past the left's
captures, optionally swap for reverse compilation, then concatenate with
class-table offsets adjusted. -/
def catProg (left right : Regexp) (rev : Bool) : Regexp :=
  let rightAdj : Regexp :=
    { right with prog := right.prog.map fun i =>
        if i.op = opSave then ⟨i.op, i.arg + (left.ncap * 2 : Int)⟩ else i }
  let l := if rev then rightAdj else left
  let r := if rev then left else rightAdj
  { prog := l.prog ++ r.prog.map (fun i =>
      if i.op = opClass ∨ i.op = opNclass then
        ⟨i.op, i.arg + (l.classes.length : Int)⟩
      else i),
    ncap := l.ncap + r.ncap,
    classes := l.classes ++ r.classes }

/-- `altProg`: `fork; left; jmp` then concatenate with right. -/
def altProg (left right : Regexp) : Regexp :=
  catProg
    { left with prog :=
        (⟨opFork, (left.prog.length + 2 : Int)⟩ :: left.prog)
          ++ [⟨opJmp, (right.prog.length + 1 : Int)⟩] }
    right false

/-- `repProg` for `+`, `*`, `?`. -/
def repProg (left : Regexp) (op : Int) : Regexp :=
  if op = 43 then
    { left with prog := left.prog ++ [⟨opRfork, -(left.prog.length : Int)⟩] }
  else if op = 42 then
    { left with prog :=
        (⟨opFork, (left.prog.length + 2 : Int)⟩ :: left.prog)
          ++ [⟨opRfork, -(left.prog.length : Int)⟩] }
  else if op = 63 then
    { left with prog := ⟨opFork, (left.prog.length + 1 : Int)⟩ :: left.prog }
  else left

/-- `groupProg`: wrap in `save 0 / save 1`, shifting inner save slots. -/
def groupProg (left : Regexp) : Regexp :=
  { left with
    prog := (⟨opSave, 0⟩ :: left.prog.map fun i =>
        if i.op = opSave then ⟨i.op, i.arg + 2⟩ else i) ++ [⟨opSave, 1⟩],
    ncap := left.ncap + 1 }

/-- The `charclass` parsing loop.  `p` is the pending class literal
(`0` = none, as in the source, where rune 0 doubles as the sentinel). -/
def charclassLoop (op : Int) (p : Int) (cl : List (Int × Int)) :
    List Int → Nat → Except String (Option Regexp × List Int)
  | _, 0 => .error "unclosed ["
  | [], _ => .error "unclosed ["
  | r :: t, fuel + 1 =>
    if r = 93 then
      let cl1 := if p ≠ 0 then cl ++ [(p, p)] else cl
      if cl1.isEmpty then .error "empty charclass"
      else .ok (some (charClassProg op cl1), t)
    else if r = 45 then
      if p = 0 ∨ peek t = 93 ∨ peek t = 45 then .error "bad range"
      else
        let (r1, t1) := next t
        let rt := if r1 = 92 then esc t1 else (r1, t1)
        if p ≥ rt.1 then .error "bad range"
        else charclassLoop op 0 (cl ++ [(p, rt.1)]) rt.2 fuel
    else if r = 92 then
      let rt := esc t
      charclassLoop op rt.1 (if p ≠ 0 then cl ++ [(p, p)] else cl) rt.2 fuel
    else
      charclassLoop op r (if p ≠ 0 then cl ++ [(p, p)] else cl) t fuel

/-- `charclass`: parse a `[...]` class (after the opening bracket). -/
def charclass (t : List Int) : Except String (Option Regexp × List Int) :=
  if peek t = 94 then charclassLoop opNclass 0 [] (next t).2 (t.length + 1)
  else charclassLoop opClass 0 [] t (t.length + 1)

/-- The mutually recursive recursive-descent parser (`alternate`, `concat`,
`repeatRe`, `repLoop`, `term`, `group`), defunctionalised into one
structural recursion over fuel so that it stays kernel-reducible.  Each
constructor is one of the source's mutually recursive functions. -/
inductive PCall where
  | alternate (t0 : List Int) (depth : Nat)
  | concat (t : List Int) (depth : Nat)
  | repeatRe (t : List Int) (depth : Nat)
  | repLoop (left : Regexp) (t : List Int)
  | term (t0 : List Int) (depth : Nat)
  | group (t : List Int) (depth : Nat)

def parseStep (opts : Opts) : PCall → Nat → Except String (Option Regexp × List Int)
  | _, 0 => .error "out of fuel"
  | .alternate t0 depth, fuel + 1 => do
    let (left, t) ← parseStep opts (.concat t0 depth) fuel
    if peek t ≠ 124 then .ok (left, t)
    else
      match left with
      | none => .error "unexpected |"
      | some l => do
        let t1 := (next t).2
        let (right, t2) ← parseStep opts (.alternate t1 depth) fuel
        match right with
        | none => .error "nil dereference in altProg"
        | some r => .ok (some (altProg l r), t2)
  | .concat t depth, fuel + 1 => do
    let (left, t1) ← parseStep opts (.repeatRe t depth) fuel
    match left with
    | none => .ok (none, t1)
    | some l => do
      let (right, t2) ← parseStep opts (.concat t1 depth) fuel
      match right with
      | none => .ok (some l, t2)
      | some r => .ok (some (catProg l r opts.Reverse), t2)
  | .repeatRe t depth, fuel + 1 => do
    let (left, t1) ← parseStep opts (.term t depth) fuel
    match left with
    | none => .ok (none, t1)
    | some l => parseStep opts (.repLoop l t1) fuel
  | .repLoop left t, fuel + 1 =>
    if peek t = 42 ∨ peek t = 43 ∨ peek t = 63 then
      let (r, t1) := next t
      parseStep opts (.repLoop (repProg left r) t1) fuel
    else .ok (some left, t)
  | .term t0 depth, fuel + 1 =>
    let (r, t) := next t0
    if r = -1 ∨ r = 10 ∨ r = opts.Delimiter then .ok (none, t)
    else if r = 92 then
      let rt := esc t
      .ok (some (opProg rt.1), rt.2)
    else if r = 46 then .ok (some (opProg opAny), t)
    else if r = 94 then
      .ok (some (opProg (if opts.Reverse then opEol else opBol)), t)
    else if r = 36 then
      .ok (some (opProg (if opts.Reverse then opBol else opEol)), t)
    else if r = 40 then parseStep opts (.group t depth) fuel
    else if r = 91 then charclass t
    else if r = 124 then .ok (none, t0)
    else if r = 41 then
      if depth = 0 then .error "unopened )" else .ok (none, t0)
    else if r = 42 ∨ r = 43 ∨ r = 63 then
      .error ("unexpected " ++ String.mk [Char.ofNat r.toNat])
    else .ok (some (opProg r), t)
  | .group t depth, fuel + 1 => do
    let (left, t1) ← parseStep opts (.alternate t (depth + 1)) fuel
    let (r, t2) := next t1
    if r ≠ 41 then .error "unclosed ("
    else
      match left with
      | none => .ok (some (groupProg ⟨[], 0, []⟩), t2)
      | some l => .ok (some (groupProg l), t2)

/-- `alternate`, as an entry point of `parseStep`. -/
def alternate (t0 : List Int) (depth : Nat) (opts : Opts) (fuel : Nat) :
    Except String (Option Regexp × List Int) :=
  parseStep opts (.alternate t0 depth) fuel


/-- `re1.New`: compile a regular expression; the expression is terminated
by end of input, an unescaped newline, or the unescaped delimiter. -/
def New (t : List Int) (opts : Opts) : Except String (Regexp × List Int) :=
  match alternate t 0 opts (6 * t.length + 16) with
  | .error e => .error e
  | .ok (re?, t') =>
    let re := re?.getD ⟨[], 0, []⟩
    let re1 := groupProg re
    .ok ({ re1 with prog := re1.prog ++ [⟨opMatch, 0⟩] }, t')

end re1

/-! ## re1: the Thompson VM (run / add / step / setMatch) -/

namespace re1

structure Thread where
  pc : Int
  mem : List Int
deriving DecidableEq, Repr

/-- Rune sources the VM reads from: a forward or a reverse rope reader
(the two used by `FindInRope` / `FindReverseInRope`). -/
inductive RSrc where
  | fwd (r : Reader)
  | rev (r : RevReader)
deriving DecidableEq, Repr

def RSrc.readRune : RSrc → RuneRead × RSrc
  | .fwd r => ((r.ReadRune).1, .fwd (r.ReadRune).2)
  | .rev r => ((r.ReadRune).1, .rev (r.ReadRune).2)

/-- VM state (`vm`).  Go's `at` and `match` are `vAt` and `best` (reserved
words in Lean); the capture-buffer free list (`v.free`) is dropped because
recycled buffers are fully overwritten in `newMem` before reuse, so the
pool has no observable effect. -/
structure VM where
  re : Regexp
  rdr : RSrc
  vAt : Int
  lim : Int
  c : Int
  n : Int
  seen : List Int
  cur : List Thread
  next : List Thread
  best : Option (List Int)
deriving DecidableEq, Repr

/-- `newMem`: a capture buffer, copied from `init` or reset to `-1`s. -/
def newMem (ncap : Nat) (init : Option (List Int)) : List Int :=
  match init with
  | some m => m
  | none => List.replicate (2 * ncap) (-1)

def classAccepts (r : Int) (cl : List (Int × Int)) (neg : Bool) : Bool :=
  if r = -1 then false
  else if cl.any (fun c => c.1 ≤ r ∧ r ≤ c.2) then !neg else neg

def accepts (v : VM) (i : Instr) : Bool :=
  if i.op = opAny then v.c ≠ 10 ∧ v.c ≠ -1
  else if i.op = opClass ∨ i.op = opNclass then
    classAccepts v.c (v.re.classes.getD i.arg.toNat []) (i.op = opNclass)
  else v.c = i.op

/-- `setMatch`: install a candidate match; replace the best so far only if
it starts no later and ends strictly later. -/
def setMatch (v : VM) (mem : List Int) : VM :=
  match v.best with
  | none => { v with best := some mem }
  | some m =>
    if mem.getD 0 0 ≤ m.getD 0 0 ∧ m.getD 1 0 < mem.getD 1 0 then
      { v with best := some mem }
    else v

/-- `add` together with `_add`: follow epsilon transitions, deduplicating
by (`pc`, input position) via `seen`.  Every level of recursion first marks
an unseen `pc`, so the recursion depth is at most `prog.length + 1`, which
is the fuel callers pass.  Out-of-range `pc` never occurs on compiled
programs (Go would panic); `getD` defaults are inert placeholders. -/
def add (v : VM) (pc : Int) (mem : List Int) : Nat → VM
  | 0 => v
  | fuel + 1 =>
    if v.seen.getD pc.toNat 0 = v.vAt then v
    else
      let v0 := { v with seen := v.seen.set pc.toNat v.vAt }
      let i := v0.re.prog.getD pc.toNat ⟨opAny, 0⟩
      if i.op = opJmp then add v0 (pc + i.arg) mem fuel
      else if i.op = opFork then
        let clone := newMem v0.re.ncap (some mem)
        let v1 := add v0 (pc + 1) mem fuel
        add v1 (pc + i.arg) clone fuel
      else if i.op = opRfork then
        let clone := newMem v0.re.ncap (some mem)
        let v1 := add v0 (pc + i.arg) mem fuel
        add v1 (pc + 1) clone fuel
      else if i.op = opSave then
        add v0 (pc + 1) (mem.set i.arg.toNat v0.vAt) fuel
      else if i.op = opBol then
        if v0.c ≠ -1 ∧ v0.c ≠ 10 then v0 else add v0 (pc + 1) mem fuel
      else if i.op = opEol then
        if v0.n ≠ -1 ∧ v0.n ≠ 10 then v0 else add v0 (pc + 1) mem fuel
      else if i.op = opMatch then setMatch v0 mem
      else { v0 with next := v0.next ++ [⟨pc, mem⟩] }

/-- `step`: advance one thread over the current rune. -/
def step (v : VM) (pc : Int) (mem : List Int) : VM :=
  if accepts v (v.re.prog.getD pc.toNat ⟨opAny, 0⟩) then
    add v (pc + 1) mem (v.re.prog.length + 1)
  else v

/-- `read(v)`: shift the two-rune window; a reader panic propagates. -/
def vmRead (v : VM) : Option VM :=
  let at1 := if v.n ≠ -1 then v.vAt + runeLen v.n else v.vAt
  let rr := v.rdr.readRune
  match rr.1 with
  | .panicked => none
  | .eofR => some { v with vAt := at1, c := v.n, n := -1, rdr := rr.2 }
  | .ok r _ => some { v with vAt := at1, c := v.n, n := r, rdr := rr.2 }

/-- Result of a VM run: a match (or `none`), a reader panic, or exhausted
fuel (never reached at the fuel the rope searches pass). -/
inductive RunRes where
  | panicked
  | fuelOut
  | res (m : Option (List Int))
deriving DecidableEq, Repr

/-- `run`: the VM main loop.  Each iteration reads one rune, so
`bytes + 3` fuel always suffices. -/
def run : VM → Nat → RunRes
  | _, 0 => .fuelOut
  | v, fuel + 1 =>
    let v1 :=
      if v.best = none then add v 0 (newMem v.re.ncap none) (v.re.prog.length + 1)
      else v
    if 0 ≤ v1.lim ∧ v1.lim ≤ v1.vAt then .res v1.best
    else
      match vmRead v1 with
      | none => .panicked
      | some v2 =>
        let v3 : VM := { v2 with cur := v2.next, next := [] }
        let v4 : VM := v3.cur.foldl (fun vv t => step vv t.pc t.mem) v3
        if v4.c = -1 ∨ (v4.best ≠ none ∧ v4.next = []) then .res v4.best
        else run v4 fuel

/-- `newVM`: fresh VM over a rune source; performs the initial `read`. -/
def newVM (re : Regexp) (rdr : RSrc) : Option VM :=
  vmRead
    { re := re, rdr := rdr, vAt := 0, lim := -1, c := -1, n := -1,
      seen := List.replicate re.prog.length (-1), cur := [], next := [],
      best := none }

/-- `prevRune`: the rune ending at byte offset `i`, or `eof`. -/
def prevRune (ro : Rope) (i : Int) : Option Int :=
  match Slice ro 0 i with
  | none => none
  | some sl =>
    match (NewReverseReader sl).ReadRune with
    | (.eofR, _) => some (-1)
    | (.ok r _, _) => some r
    | (.panicked, _) => none

/-- `nextRune`: the rune starting at byte offset `i`, or `eof`. -/
def nextRune (ro : Rope) (i : Int) : Option Int :=
  match Slice ro i (ro.len : Int) with
  | none => none
  | some sl =>
    match (NewReader sl).ReadRune with
    | (.eofR, _) => some (-1)
    | (.ok r _, _) => some r
    | (.panicked, _) => none

/-- `FindInRope`: left-most longest match between byte offsets `s`
(inclusive) and `e` (exclusive). -/
def FindInRope (re : Regexp) (ro : Rope) (s e : Int) : RunRes :=
  match Slice ro s (ro.len : Int) with
  | none => .panicked
  | some sl =>
    match newVM re (.fwd (NewReader sl)) with
    | none => .panicked
    | some v =>
      match prevRune ro s with
      | none => .panicked
      | some c => run { v with c := c, vAt := s, lim := e } (sl.len + 3)

/-- The offset un-reversal loop at the end of `FindReverseInRope`. -/
def revMap (e : Int) : List Int → List Int
  | a :: b :: rest => (if 0 ≤ a then [e - b, e - a] else [a, b]) ++ revMap e rest
  | rest => rest

/-- `FindReverseInRope`: right-most longest match of a reverse-compiled
expression between byte offsets `s` and `e`. -/
def FindReverseInRope (re : Regexp) (ro : Rope) (s e : Int) : RunRes :=
  match Slice ro 0 e with
  | none => .panicked
  | some sl =>
    match newVM re (.rev (NewReverseReader sl)) with
    | none => .panicked
    | some v =>
      match nextRune ro e with
      | none => .panicked
      | some c =>
        match run { v with c := c, lim := e - s } (sl.len + 3) with
        | .res (some ms) => .res (some (revMap e ms))
        | other => other

/-- `union2`: like `catProg` but as an alternation that neither renumbers
capture groups nor reverses, with `ncap` the maximum of the two. -/
def union2 (left right : Regexp) : Regexp :=
  { prog := ((⟨opFork, (left.prog.length + 2 : Int)⟩ :: left.prog)
        ++ [⟨opJmp, (right.prog.length + 1 : Int)⟩])
      ++ right.prog.map (fun i =>
        if i.op = opClass ∨ i.op = opNclass then
          ⟨i.op, i.arg + (left.classes.length : Int)⟩
        else i),
    ncap := max left.ncap right.ncap,
    classes := left.classes ++ right.classes }

/-- `Union`: the union of a set of regexps; `none` for the empty union. -/
def Union (res : List Regexp) : Option Regexp :=
  match res with
  | [] => none
  | [r] => some r
  | r :: rest => some (rest.foldl union2 r)

/-- Every capture buffer in the machine (current and next thread lists,
and the best match) has the program's length `2 * ncap`. -/
def memOK (v : VM) : Prop :=
  (∀ th ∈ v.cur, th.mem.length = 2 * v.re.ncap) ∧
  (∀ th ∈ v.next, th.mem.length = 2 * v.re.ncap) ∧
  (∀ m, v.best = some m → m.length = 2 * v.re.ncap)

theorem setMatch_memOK {v : VM} {mem : List Int} (h : memOK v)
    (hm : mem.length = 2 * v.re.ncap) :
    memOK (setMatch v mem) ∧ (setMatch v mem).re = v.re := by
  obtain ⟨h1, h2, h3⟩ := h
  unfold setMatch
  cases hb : v.best with
  | none =>
    exact ⟨⟨h1, h2, fun m2 hm2 => by injection hm2 with e; exact e ▸ hm⟩, rfl⟩
  | some m =>
    dsimp only
    split
    · exact ⟨⟨h1, h2, fun m2 hm2 => by injection hm2 with e; exact e ▸ hm⟩, rfl⟩
    · exact ⟨⟨h1, h2, h3⟩, rfl⟩

theorem add_memOK : ∀ (fuel : Nat) (v : VM) (pc : Int) (mem : List Int),
    memOK v → mem.length = 2 * v.re.ncap →
    memOK (add v pc mem fuel) ∧ (add v pc mem fuel).re = v.re := by
  intro fuel
  induction fuel with
  | zero => intro v pc mem h _; exact ⟨h, rfl⟩
  | succ n ih =>
    intro v pc mem h hm
    rw [add]
    dsimp only
    split
    · exact ⟨h, rfl⟩
    · split
      · exact ih _ _ _ h hm
      · split
        · -- fork
          have h1 := ih { v with seen := v.seen.set pc.toNat v.vAt }
            (pc + 1) mem h hm
          have h2 := ih
            (add { v with seen := v.seen.set pc.toNat v.vAt } (pc + 1) mem n)
            (pc + (v.re.prog.getD pc.toNat ⟨opAny, 0⟩).arg)
            (newMem v.re.ncap (some mem)) h1.1 (by rw [h1.2]; exact hm)
          exact ⟨h2.1, by rw [h2.2, h1.2]⟩
        · split
          · -- rfork
            have h1 := ih { v with seen := v.seen.set pc.toNat v.vAt }
              (pc + (v.re.prog.getD pc.toNat ⟨opAny, 0⟩).arg) mem h hm
            have h2 := ih
              (add { v with seen := v.seen.set pc.toNat v.vAt }
                (pc + (v.re.prog.getD pc.toNat ⟨opAny, 0⟩).arg) mem n)
              (pc + 1) (newMem v.re.ncap (some mem)) h1.1
              (by rw [h1.2]; exact hm)
            exact ⟨h2.1, by rw [h2.2, h1.2]⟩
          · split
            · -- save
              exact ih _ _ _ h (by rw [List.length_set]; exact hm)
            · split
              · -- bol
                split
                · exact ⟨h, rfl⟩
                · exact ih _ _ _ h hm
              · split
                · -- eol
                  split
                  · exact ⟨h, rfl⟩
                  · exact ih _ _ _ h hm
                · split
                  · -- match
                    exact setMatch_memOK h hm
                  · -- queue on next
                    obtain ⟨h1, h2, h3⟩ := h
                    refine ⟨⟨h1, ?_, h3⟩, rfl⟩
                    intro th ht
                    rcases List.mem_append.1 ht with hin | hin
                    · exact h2 th hin
                    · have he := List.mem_singleton.1 hin
                      rw [he]
                      exact hm

theorem step_memOK {v : VM} {pc : Int} {mem : List Int} (h : memOK v)
    (hm : mem.length = 2 * v.re.ncap) :
    memOK (step v pc mem) ∧ (step v pc mem).re = v.re := by
  unfold step
  split
  · exact add_memOK _ v _ mem h hm
  · exact ⟨h, rfl⟩

theorem foldl_step_memOK : ∀ (l : List Thread) (v : VM),
    memOK v → (∀ th ∈ l, th.mem.length = 2 * v.re.ncap) →
    memOK (l.foldl (fun vv t => step vv t.pc t.mem) v) ∧
      (l.foldl (fun vv t => step vv t.pc t.mem) v).re = v.re := by
  intro l
  induction l with
  | nil => intro v h _; exact ⟨h, rfl⟩
  | cons th rest ih =>
    intro v h hl
    simp only [List.foldl_cons]
    have hs := @step_memOK v th.pc th.mem h (hl th (by simp))
    have hr := ih (step v th.pc th.mem) hs.1
      (fun t ht => by rw [hs.2]; exact hl t (List.mem_cons_of_mem _ ht))
    exact ⟨hr.1, by rw [hr.2, hs.2]⟩

theorem vmRead_memOK {v v2 : VM} (h : memOK v) (hr : vmRead v = some v2) :
    memOK v2 ∧ v2.re = v.re ∧ v2.cur = v.cur ∧ v2.next = v.next ∧
      v2.best = v.best := by
  simp only [vmRead] at hr
  split at hr
  · exact absurd hr (by simp)
  · cases hr
    exact ⟨h, rfl, rfl, rfl, rfl⟩
  · cases hr
    exact ⟨h, rfl, rfl, rfl, rfl⟩

theorem run_memOK : ∀ (fuel : Nat) (v : VM), memOK v →
    ∀ ms, run v fuel = .res (some ms) → ms.length = 2 * v.re.ncap := by
  intro fuel
  induction fuel with
  | zero => intro v _ ms hr; exact absurd hr (by simp [run])
  | succ n ih =>
    intro v h ms hr
    rw [run] at hr
    dsimp only at hr
    have hv1 : memOK (if v.best = none
          then add v 0 (newMem v.re.ncap none) (v.re.prog.length + 1) else v) ∧
        (if v.best = none
          then add v 0 (newMem v.re.ncap none) (v.re.prog.length + 1)
          else v).re = v.re := by
      split
      · exact add_memOK _ v _ _ h (by simp [newMem])
      · exact ⟨h, rfl⟩
    generalize hg : (if v.best = none
        then add v 0 (newMem v.re.ncap none) (v.re.prog.length + 1) else v)
      = v1 at hr hv1
    split at hr
    · injection hr with he
      rw [← hv1.2]
      exact hv1.1.2.2 ms he
    · split at hr
      · exact absurd hr (by simp)
      · rename_i v2 heq
        have hv2 := vmRead_memOK hv1.1 heq
        have hv3 : memOK { v2 with cur := v2.next, next := ([] : List Thread) } :=
          ⟨hv2.1.2.1, by simp, hv2.1.2.2⟩
        have hv4 := foldl_step_memOK v2.next
          { v2 with cur := v2.next, next := ([] : List Thread) } hv3 hv2.1.2.1
        split at hr
        · injection hr with he
          rw [← hv1.2, ← hv2.2.1]
          have := hv4.1.2.2 ms (by rw [← he])
          rwa [hv4.2] at this
        · have := ih _ hv4.1 ms hr
          rwa [hv4.2, hv2.2.1, hv1.2] at this

theorem newVM_memOK {re : Regexp} {rdr : RSrc} {v : VM}
    (h : newVM re rdr = some v) : memOK v ∧ v.re = re := by
  unfold newVM at h
  have h0 : memOK ⟨re, rdr, 0, -1, -1, -1,
      List.replicate re.prog.length (-1), [], [], none⟩ :=
    ⟨by simp, by simp, by simp⟩
  have hv := vmRead_memOK h0 h
  exact ⟨hv.1, hv.2.1⟩

theorem revMap_length (e : Int) : ∀ l : List Int, (revMap e l).length = l.length
  | [] => rfl
  | [a] => rfl
  | a :: b :: rest => by
    rw [revMap, List.length_append, revMap_length e rest]
    split <;> simp [List.length_cons] <;> omega

theorem FindInRope_len {re : Regexp} {ro : Rope} {s e : Int} {ms : List Int}
    (h : FindInRope re ro s e = .res (some ms)) : ms.length = 2 * re.ncap := by
  unfold FindInRope at h
  split at h
  · exact absurd h (by simp)
  · split at h
    · exact absurd h (by simp)
    · rename_i v hv
      split at h
      · exact absurd h (by simp)
      · have hm := newVM_memOK hv
        have := run_memOK _ _ (show memOK { v with c := _, vAt := s, lim := e }
          from hm.1) ms h
        rwa [show ({ v with c := _, vAt := s, lim := e } : VM).re = re
          from hm.2] at this

theorem FindReverseInRope_len {re : Regexp} {ro : Rope} {s e : Int}
    {ms : List Int} (h : FindReverseInRope re ro s e = .res (some ms)) :
    ms.length = 2 * re.ncap := by
  unfold FindReverseInRope at h
  split at h
  · exact absurd h (by simp)
  · split at h
    · exact absurd h (by simp)
    · rename_i v hv
      split at h
      · exact absurd h (by simp)
      · split at h
        · rename_i ms0 hrun
          injection h with h1
          injection h1 with h2
          have hm := newVM_memOK hv
          have := run_memOK _ _ (show memOK { v with c := _, lim := e - s }
            from hm.1) ms0 hrun
          rw [show ({ v with c := _, lim := e - s } : VM).re = re
            from hm.2] at this
          rw [← h2, revMap_length, this]
        · exact absurd h (by simp_all)

theorem New_ncap {t t1 : List Int} {opts : Opts} {re : Regexp}
    (h : New t opts = .ok (re, t1)) : 1 ≤ re.ncap := by
  unfold New at h
  split at h
  · exact absurd h (by simp)
  · dsimp only at h
    injection h with h1
    have h2 := congrArg Prod.fst h1
    dsimp only at h2
    rw [← h2]
    exact Nat.le_add_left 1 _

end re1

/-! ## edit: address resolver and the move command (edit/edit.go)

Command/address text is the decoded rune sequence (`List Int`).  Errors are
the source's message strings in an `Except`.  `number` does not model the
`strconv.Atoi` int64-overflow error (unreachable in this development). -/

namespace edit

def next : List Int → Int × List Int
  | [] => (-1, [])
  | r :: t => (r, t)

/-- `unicode.IsSpace` restricted to its Latin-1 members. -/
def isSpaceRune (r : Int) : Bool :=
  r = 32 ∨ r = 9 ∨ r = 10 ∨ r = 11 ∨ r = 12 ∨ r = 13 ∨ r = 0x85 ∨ r = 0xA0

def trimSpaceLeft (t : List Int) : List Int := t.dropWhile isSpaceRune

def isDigit (r : Int) : Bool := 48 ≤ r ∧ r ≤ 57

/-- `number`: parse leading digits; defaults to 1 when there are none. -/
def number (t : List Int) : Int × List Int :=
  let digits := t.takeWhile isDigit
  if digits.isEmpty then (1, t)
  else (digits.foldl (fun acc d => acc * 10 + (d - 48)) 0, t.dropWhile isDigit)

/-- The `for nrunes > 0` loop of `runeAddr` over a forward reader. -/
def countBytesFwd (rd : Reader) (acc : Int) : Nat → Except String Int
  | 0 => .ok acc
  | n + 1 =>
    match rd.ReadRune with
    | (.eofR, _) => .error "address out of range"
    | (.panicked, _) => .error "panic: slice bounds out of range"
    | (.ok _ w, rd') => countBytesFwd rd' (acc + w) n

/-- The same loop over a reverse reader. -/
def countBytesRev (rd : RevReader) (acc : Int) : Nat → Except String Int
  | 0 => .ok acc
  | n + 1 =>
    match rd.ReadRune with
    | (.eofR, _) => .error "address out of range"
    | (.panicked, _) => .error "panic: slice bounds out of range"
    | (.ok _ w, rd') => countBytesRev rd' (acc + w) n

/-- `runeAddr`: `#n`, the empty string `n` runes from the pivot. -/
def runeAddr (ro : Rope) (pv : Int) (rev : Bool) (t : List Int) :
    Except String ((Int × Int) × List Int) :=
  let nt := number t
  if rev then
    match Slice ro 0 pv with
    | none => .error "panic: index out of bounds"
    | some sl => do
      let nb ← countBytesRev (NewReverseReader sl) 0 nt.1.toNat
      .ok ((pv - nb, pv - nb), nt.2)
  else
    match Slice ro pv (ro.len : Int) with
    | none => .error "panic: index out of bounds"
    | some sl => do
      let nb ← countBytesFwd (NewReader sl) 0 nt.1.toNat
      .ok ((pv + nb, pv + nb), nt.2)

/-- `lineForward`: count `nlines` newlines forward; when the input runs out a final
newline is synthesized when the count is already satisfied. -/
def lineForward (rd : Reader) (pv : Int) (nlines : Int) (dot : Int × Int) :
    Nat → Except String (Int × Int)
  | 0 => .error "out of fuel"
  | fuel + 1 =>
    if 0 ≤ nlines then
      match rd.ReadByte with
      | (none, rd') =>
        if nlines = 0 then lineForward rd' pv (nlines - 1) (dot.2, pv) fuel
        else .error "address out of range"
      | (some b, rd') =>
        if b = 10 then lineForward rd' (pv + 1) (nlines - 1) (dot.2, pv + 1) fuel
        else lineForward rd' (pv + 1) nlines dot fuel
    else .ok dot

/-- `lineReverse`: count newlines backwards; running out of input at line 1
yields the zero dot (line 0). -/
def lineReverse (rd : RevReader) (pv : Int) (nlines : Int) (dot : Int × Int) :
    Nat → Except String (Int × Int)
  | 0 => .error "out of fuel"
  | fuel + 1 =>
    match rd.ReadByte with
    | (none, _) =>
      if nlines = 0 then .ok (pv, dot.1)
      else if nlines = 1 then .ok (0, 0)
      else .error "address out of range"
    | (some b, rd') =>
      if b = 10 then
        if nlines - 1 < 0 then .ok (pv, dot.1)
        else lineReverse rd' (pv - 1) (nlines - 1) (pv, dot.1) fuel
      else lineReverse rd' (pv - 1) nlines dot fuel

/-- `lineAddr`: the `n`-th line, with the off-by-one adjustment when the
byte before the pivot is a newline (or the pivot is at the start). -/
def lineAddr (ro : Rope) (pv : Int) (rev : Bool) (t : List Int) :
    Except String ((Int × Int) × List Int) :=
  let nt := number t
  if rev then
    match Slice ro 0 pv with
    | none => .error "panic: index out of bounds"
    | some sl => do
      let d ← lineReverse (NewReverseReader sl) pv nt.1 (pv, pv) (sl.len + 2)
      .ok (d, nt.2)
  else
    match Slice ro 0 pv with
    | none => .error "panic: index out of bounds"
    | some sl0 =>
      let n1 :=
        match ((NewReverseReader sl0).ReadRune).1 with
        | .eofR => nt.1 - 1
        | .ok r _ => if r = 10 then nt.1 - 1 else nt.1
        | .panicked => nt.1
      match Slice ro pv (ro.len : Int) with
      | none => .error "panic: index out of bounds"
      | some sl => do
        let d ← lineForward (NewReader sl) pv n1 (pv, pv) (sl.len + 2)
        .ok (d, nt.2)

/-- `regexpAddr`: `/re/`, the nearest match forward (or backward), wrapping
around the end (or beginning) of the rope before failing with "no match". -/
def regexpAddr (ro : Rope) (pv : Int) (rev : Bool) (t : List Int) :
    Except String ((Int × Int) × List Int) :=
  match re1.New t ⟨rev, 47⟩ with
  | .error e => .error e
  | .ok (re, t1) =>
    match
      (if rev then
        match re1.FindReverseInRope re ro 0 pv with
        | .res none =>
          match re1.FindReverseInRope re ro 0 (ro.len : Int) with
          | .res m2 => Except.ok m2
          | _ => .error "re1 run failed"
        | .res m => Except.ok m
        | _ => .error "re1 run failed"
      else
        match re1.FindInRope re ro pv (ro.len : Int) with
        | .res none =>
          match re1.FindInRope re ro 0 (ro.len : Int) with
          | .res m2 => Except.ok m2
          | _ => .error "re1 run failed"
        | .res m => Except.ok m
        | _ => .error "re1 run failed" :
        Except String (Option (List Int))) with
    | .error e => .error e
    | .ok none => .error "no match"
    | .ok (some l) =>
      if l.isEmpty then .error "no match"
      else .ok ((l.getD 0 0, l.getD 1 0), t1)

def addr1First (r : Int) : Bool :=
  r = 46 ∨ r = 39 ∨ r = 35 ∨ (48 ≤ r ∧ r ≤ 57) ∨ r = 47 ∨ r = 36

/-- `addr1`: a primary address; `(-1,-1)` means "no address here". -/
def addr1 (dot : Int × Int) (pv : Int) (rev : Bool) (ro : Rope)
    (t0 : List Int) : Except String ((Int × Int) × List Int) :=
  let t0t := trimSpaceLeft t0
  let (r, t) := next t0t
  if r = -1 then .ok ((-1, -1), [])
  else if r = 46 then .ok (dot, t)
  else if r = 35 then runeAddr ro pv rev t
  else if 48 ≤ r ∧ r ≤ 57 then lineAddr ro pv rev t0t
  else if r = 47 then regexpAddr ro pv rev t
  else if r = 36 then .ok (((ro.len : Int), (ro.len : Int)), t)
  else .ok ((-1, -1), t0t)

/-- `addr2`: left-associative `+`/`-` composition, with juxtaposition
turned into an implicit `+` and an absent right operand defaulting to
the line address `1`. -/
def addr2 (dot left : Int × Int) (ro : Rope) (t0 : List Int) :
    Nat → Except String ((Int × Int) × List Int)
  | 0 => .error "out of fuel"
  | fuel + 1 =>
    let (r0, t') := next (trimSpaceLeft t0)
    if r0 = -1 then .ok (left, [])
    else
      let rt : Int × List Int := if addr1First r0 then (43, t0) else (r0, t')
      if rt.1 ≠ 43 ∧ rt.1 ≠ 45 then .ok (left, t0)
      else do
        let left1 := if left.1 < 0 then dot else left
        let pv := if rt.1 = 45 then left1.1 else left1.2
        let (right, t1) ← addr1 dot pv (rt.1 = 45) ro rt.2
        if right.1 < 0 then do
          let (right2, _) ← addr1 dot pv (rt.1 = 45) ro [49]
          addr2 dot right2 ro t1 fuel
        else addr2 dot right ro t1 fuel

/-- The mutually recursive `addr` / `addr3`, defunctionalised into one
structural recursion over fuel so that it stays kernel-reducible. -/
inductive ACall where
  | addr (dot : Int × Int) (t : List Int)
  | addr3 (dot left : Int × Int) (t0 : List Int)

def addrStep (ro : Rope) : ACall → Nat → Except String ((Int × Int) × (Int × Int) × List Int)
  | _, 0 => .error "out of fuel"
  | .addr dot t, fuel + 1 => do
    let (left, t1) ← addr1 dot 0 false ro t
    let (left2, t2) ← addr2 dot left ro t1 (t1.length + 2)
    addrStep ro (.addr3 dot left2 t2) fuel
  | .addr3 dot left t0, fuel + 1 =>
    let (r, t) := next (trimSpaceLeft t0)
    if r = -1 then .ok (left, dot, [])
    else if r ≠ 44 ∧ r ≠ 59 then .ok (left, dot, t0)
    else
      let left1 := if left.1 < 0 then ((0 : Int), (0 : Int)) else left
      let dot1 := if r = 59 then left1 else dot
      do
        let (right, dot2, t1) ← addrStep ro (.addr dot1 t) fuel
        let right1 :=
          if right.1 < 0 then ((ro.len : Int), (ro.len : Int)) else right
        if left1.1 > right1.2 then .error "address out of order"
        else addrStep ro (.addr3 dot2 (left1.1, right1.2) t1) fuel

/-- `addr`: the full address grammar; also returns the (possibly `;`-updated)
dot. -/
def addr (dot : Int × Int) (ro : Rope) (t : List Int) (fuel : Nat) :
    Except String ((Int × Int) × (Int × Int) × List Int) :=
  addrStep ro (.addr dot t) fuel

/-- `move`: the `m` command, after its source range `a` has been resolved.
Evaluates the destination address from `t`, then: no destination →
"expected address"; empty source or destination inside the source → no-op;
source before destination → slide the destination left by the source's
length; produce the delete diff followed by the insert diff. -/
def move (dot a : Int × Int) (t : List Int) (ro : Rope) (fuel : Nat) :
    Except String (List Diff × List Int) :=
  match addr dot ro t fuel with
  | .error e => .error e
  | .ok (b, _, t1) =>
    if b.1 < 0 then .error "expected address"
    else if a.1 = a.2 then .ok ([], t1)
    else if a.1 ≤ b.2 ∧ b.2 < a.2 then .ok ([], t1)
    else
      let b2 := if a.2 < b.2 then b.2 - (a.2 - a.1) else b.2
      match Slice ro a.1 a.2 with
      | none => .error "panic: index out of bounds"
      | some sl => .ok ([⟨(a.1, a.2), none⟩, ⟨(b2, b2), some sl⟩], t1)

end edit

instance {e a : Type} [DecidableEq e] [DecidableEq a] : DecidableEq (Except e a) :=
  fun x y =>
    match x, y with
    | .error u, .error v =>
      if h : u = v then .isTrue (by rw [h])
      else .isFalse (by intro hc; injection hc; exact h (by assumption))
    | .error _, .ok _ => .isFalse (by intro hc; exact Except.noConfusion hc)
    | .ok _, .error _ => .isFalse (by intro hc; exact Except.noConfusion hc)
    | .ok u, .ok v =>
      if h : u = v then .isTrue (by rw [h])
      else .isFalse (by intro hc; injection hc; exact h (by assumption))

/-! ## Claims C6 - C8 -/

/-- C6: matching is leftmost-longest.  (i) `setMatch` replaces the best
match found so far exactly when the candidate starts no later and ends
strictly later; (ii) the regexp compiled from `"a*"`, run by `FindInRope`
over the rope `"aaa"` with window `[0,2)`, returns full-match offsets
`[0,2]` (the match `"aa"`). -/
theorem c6_leftmost_longest :
    (∀ (v : re1.VM) (m mem : List Int), v.best = some m →
      (re1.setMatch v mem).best =
        if mem.getD 0 0 ≤ m.getD 0 0 ∧ m.getD 1 0 < mem.getD 1 0 then some mem
        else some m) ∧
    (∃ re, re1.New [97, 42] {} = .ok (re, []) ∧
      re1.FindInRope re (NewRope [97, 97, 97]) 0 2 = .res (some [0, 2])) := by
  constructor
  · intro v m mem h
    unfold re1.setMatch
    rw [h]
    dsimp only
    by_cases hc : mem.getD 0 0 ≤ m.getD 0 0 ∧ m.getD 1 0 < mem.getD 1 0
    · rw [if_pos hc, if_pos hc]
    · rw [if_neg hc, if_neg hc]
      exact h
  · exact ⟨⟨[⟨-9, 0⟩, ⟨-7, 3⟩, ⟨97, 0⟩, ⟨-8, -1⟩, ⟨-9, 1⟩, ⟨0, 0⟩], 1, []⟩,
      by decide, by decide⟩

theorem c6_witness :
    (re1.setMatch
        ⟨⟨[], 0, []⟩, .fwd (NewReader EmptyRope), 0, -1, -1, -1, [], [], [],
          some [1, 3]⟩
        [0, 5]).best = some [0, 5] := by
  have h := c6_leftmost_longest.1
    ⟨⟨[], 0, []⟩, .fwd (NewReader EmptyRope), 0, -1, -1, -1, [], [], [],
      some [1, 3]⟩
    [1, 3] [0, 5] rfl
  simpa using h

/-- C7 (evaluation at the failing input): the union of the compiled `"abc"`
and `"def"` run over the rope `"def"` returns `[0, 3]` — a slice of length
`2 * ncap = 2` with no trailing element naming the matched component — in
contradiction with the claim (and the repository's own `TestUnion`, which
wants `[0, 3, 1]`, and `sub` in the edit package, which trims a "regexp ID"
off every match).  The source `Opts` has no `ID` field at all, so
`union_test.go`'s `Opts{ID: i}` does not even compile against it. -/
theorem c7_union_id_missing_eval :
    ∃ ra rb, re1.New [97, 98, 99] {} = .ok (ra, []) ∧
      re1.New [100, 101, 102] {} = .ok (rb, []) ∧
      (re1.Union [ra, rb]).map
          (fun u => (re1.FindInRope u (NewRope [100, 101, 102]) 0 3, 2 * u.ncap))
        = some (.res (some [0, 3]), 2) := by
  refine ⟨⟨[⟨-9, 0⟩, ⟨97, 0⟩, ⟨98, 0⟩, ⟨99, 0⟩, ⟨-9, 1⟩, ⟨0, 0⟩], 1, []⟩,
    ⟨[⟨-9, 0⟩, ⟨100, 0⟩, ⟨101, 0⟩, ⟨102, 0⟩, ⟨-9, 1⟩, ⟨0, 0⟩], 1, []⟩,
    by decide, by decide, by decide⟩

/-- C8, counterexample to the claim as stated: moving source range `[2,4)`
of the rope `"abcdef"` to the destination `#0` (which resolves to `[0,0)`,
strictly before the source) produces the insert diff at offset `0`, not at
the claimed `b[1] - (a[1]-a[0]) = -2`: the code shifts the destination only
when the source precedes it. -/
theorem c8_counterexample :
    edit.move (0, 0) (2, 4) [35, 48] (NewRope [97, 98, 99, 100, 101, 102]) 10
        = .ok ([⟨(2, 4), none⟩, ⟨(0, 0), some (NewRope [99, 100])⟩], [])
      ∧ (0 : Int) ≠ 0 - ((4 : Int) - 2) := by
  decide

/-- C8 (amended): for the `m` command with resolved source range `a` and
destination address `b`: a destination that fails to parse is "expected
address"; an empty source range is a no-op with no diffs and no error; a
destination whose end falls inside the source range is likewise a no-op;
when the source precedes the destination (`a.2 < b.2`) the destination
offset is shifted left by the source's length before the insert diff is
produced (the delete diff applies first in document order); otherwise — in
particular when the destination precedes the source — it is not shifted. -/
theorem c8_move_semantics {dot a : Int × Int} {t : List Int} {ro : Rope}
    {fuel : Nat} {b d2 : Int × Int} {t1 : List Int}
    (haddr : edit.addr dot ro t fuel = .ok (b, d2, t1)) :
    (b.1 < 0 → edit.move dot a t ro fuel = .error "expected address") ∧
    (0 ≤ b.1 → a.1 = a.2 → edit.move dot a t ro fuel = .ok ([], t1)) ∧
    (0 ≤ b.1 → a.1 ≤ b.2 → b.2 < a.2 →
      edit.move dot a t ro fuel = .ok ([], t1)) ∧
    (∀ sl, 0 ≤ b.1 → a.1 ≠ a.2 → a.2 < b.2 → Slice ro a.1 a.2 = some sl →
      edit.move dot a t ro fuel
        = .ok ([⟨(a.1, a.2), none⟩,
            ⟨(b.2 - (a.2 - a.1), b.2 - (a.2 - a.1)), some sl⟩], t1)) ∧
    (∀ sl, 0 ≤ b.1 → a.1 ≠ a.2 → ¬(a.1 ≤ b.2 ∧ b.2 < a.2) → ¬(a.2 < b.2) →
      Slice ro a.1 a.2 = some sl →
      edit.move dot a t ro fuel
        = .ok ([⟨(a.1, a.2), none⟩, ⟨(b.2, b.2), some sl⟩], t1)) := by
  refine ⟨?_, ?_, ?_, ?_, ?_⟩
  · intro hb
    unfold edit.move
    rw [haddr]
    dsimp only
    rw [if_pos hb]
  · intro hb he
    unfold edit.move
    rw [haddr]
    dsimp only
    rw [if_neg (by omega), if_pos he]
  · intro hb h1 h2
    unfold edit.move
    rw [haddr]
    dsimp only
    rw [if_neg (by omega)]
    by_cases he : a.1 = a.2
    · rw [if_pos he]
    · rw [if_neg he, if_pos ⟨h1, h2⟩]
  · intro sl hb hne hlt hsl
    unfold edit.move
    rw [haddr]
    dsimp only
    rw [if_neg (by omega), if_neg hne, if_neg (by omega), hsl]
    dsimp only
    rw [if_pos hlt]
  · intro sl hb hne hni hns hsl
    unfold edit.move
    rw [haddr]
    dsimp only
    rw [if_neg (by omega), if_neg hne, if_neg hni, hsl]
    dsimp only
    rw [if_neg hns]

theorem c8_witness :
    edit.move (0, 0) (0, 4) [35, 50] (NewRope [97, 98, 99, 100, 101, 102]) 10
      = .ok ([], []) :=
  (@c8_move_semantics (0, 0) (0, 4) [35, 50]
      (NewRope [97, 98, 99, 100, 101, 102]) 10 (2, 2) (0, 0) []
      (by decide)).2.2.1 (by decide) (by decide) (by decide)

/-- C9: a forward regexp address evaluated from position `pv` returns the
match `FindInRope` finds in `[pv, Len())`; if that search finds nothing it
wraps around, returning the match of a whole-rope search; symmetrically a
backward address searches `[0, pv)` by `FindReverseInRope` and then wraps
to the whole rope; and the error "no match" is returned only when the
whole-rope search (and the windowed one) finds nothing. -/
theorem c9_regexp_addr_wrap :
    (∀ (ro : Rope) (pv : Int) (t t1 : List Int) (re : re1.Regexp),
      re1.New t ⟨false, 47⟩ = .ok (re, t1) →
      ((∀ ms, re1.FindInRope re ro pv ((ro.len : Int)) = .res (some ms) →
        edit.regexpAddr ro pv false t = .ok ((ms.getD 0 0, ms.getD 1 0), t1)) ∧
      (re1.FindInRope re ro pv ((ro.len : Int)) = .res none →
        ∀ ms, re1.FindInRope re ro 0 ((ro.len : Int)) = .res (some ms) →
          edit.regexpAddr ro pv false t = .ok ((ms.getD 0 0, ms.getD 1 0), t1)) ∧
      (edit.regexpAddr ro pv false t = .error "no match" →
        re1.FindInRope re ro 0 ((ro.len : Int)) = .res none ∧
        re1.FindInRope re ro pv ((ro.len : Int)) = .res none))) ∧
    (∀ (ro : Rope) (pv : Int) (t t1 : List Int) (re : re1.Regexp),
      re1.New t ⟨true, 47⟩ = .ok (re, t1) →
      ((∀ ms, re1.FindReverseInRope re ro 0 pv = .res (some ms) →
        edit.regexpAddr ro pv true t = .ok ((ms.getD 0 0, ms.getD 1 0), t1)) ∧
      (re1.FindReverseInRope re ro 0 pv = .res none →
        ∀ ms, re1.FindReverseInRope re ro 0 ((ro.len : Int)) = .res (some ms) →
          edit.regexpAddr ro pv true t = .ok ((ms.getD 0 0, ms.getD 1 0), t1)) ∧
      (edit.regexpAddr ro pv true t = .error "no match" →
        re1.FindReverseInRope re ro 0 ((ro.len : Int)) = .res none ∧
        re1.FindReverseInRope re ro 0 pv = .res none))) := by
  constructor
  · intro ro pv t t1 re hnew
    refine ⟨?_, ?_, ?_⟩
    · intro ms hms
      have h2 := re1.FindInRope_len hms
      have h3 := re1.New_ncap hnew
      unfold edit.regexpAddr
      rw [hnew]
      simp only [Bool.false_eq_true, if_false]
      rw [hms]
      dsimp only
      rw [if_neg (by rw [List.isEmpty_iff_length_eq_zero]; omega)]
    · intro hnone ms hms
      have h2 := re1.FindInRope_len hms
      have h3 := re1.New_ncap hnew
      unfold edit.regexpAddr
      rw [hnew]
      simp only [Bool.false_eq_true, if_false]
      rw [hnone, hms]
      dsimp only
      rw [if_neg (by rw [List.isEmpty_iff_length_eq_zero]; omega)]
    · intro h
      unfold edit.regexpAddr at h
      rw [hnew] at h
      simp only [Bool.false_eq_true, if_false] at h
      cases hf : re1.FindInRope re ro pv ((ro.len : Int)) with
      | panicked =>
        rw [hf] at h
        dsimp only at h
        exact absurd h (by decide)
      | fuelOut =>
        rw [hf] at h
        dsimp only at h
        exact absurd h (by decide)
      | res m =>
        cases m with
        | some l =>
          rw [hf] at h
          dsimp only at h
          have h2 := re1.FindInRope_len hf
          have h3 := re1.New_ncap hnew
          rw [if_neg (by rw [List.isEmpty_iff_length_eq_zero]; omega)] at h
          exact absurd h (by simp)
        | none =>
          rw [hf] at h
          dsimp only at h
          cases hf2 : re1.FindInRope re ro 0 ((ro.len : Int)) with
          | panicked =>
            rw [hf2] at h
            dsimp only at h
            exact absurd h (by decide)
          | fuelOut =>
            rw [hf2] at h
            dsimp only at h
            exact absurd h (by decide)
          | res m2 =>
            cases m2 with
            | some l2 =>
              rw [hf2] at h
              dsimp only at h
              have h2 := re1.FindInRope_len hf2
              have h3 := re1.New_ncap hnew
              rw [if_neg (by rw [List.isEmpty_iff_length_eq_zero]; omega)] at h
              exact absurd h (by simp)
            | none => exact ⟨rfl, rfl⟩
  · intro ro pv t t1 re hnew
    refine ⟨?_, ?_, ?_⟩
    · intro ms hms
      have h2 := re1.FindReverseInRope_len hms
      have h3 := re1.New_ncap hnew
      unfold edit.regexpAddr
      rw [hnew]
      simp only [if_true]
      rw [hms]
      dsimp only
      rw [if_neg (by rw [List.isEmpty_iff_length_eq_zero]; omega)]
    · intro hnone ms hms
      have h2 := re1.FindReverseInRope_len hms
      have h3 := re1.New_ncap hnew
      unfold edit.regexpAddr
      rw [hnew]
      simp only [if_true]
      rw [hnone, hms]
      dsimp only
      rw [if_neg (by rw [List.isEmpty_iff_length_eq_zero]; omega)]
    · intro h
      unfold edit.regexpAddr at h
      rw [hnew] at h
      simp only [if_true] at h
      cases hf : re1.FindReverseInRope re ro 0 pv with
      | panicked =>
        rw [hf] at h
        dsimp only at h
        exact absurd h (by decide)
      | fuelOut =>
        rw [hf] at h
        dsimp only at h
        exact absurd h (by decide)
      | res m =>
        cases m with
        | some l =>
          rw [hf] at h
          dsimp only at h
          have h2 := re1.FindReverseInRope_len hf
          have h3 := re1.New_ncap hnew
          rw [if_neg (by rw [List.isEmpty_iff_length_eq_zero]; omega)] at h
          exact absurd h (by simp)
        | none =>
          rw [hf] at h
          dsimp only at h
          cases hf2 : re1.FindReverseInRope re ro 0 ((ro.len : Int)) with
          | panicked =>
            rw [hf2] at h
            dsimp only at h
            exact absurd h (by decide)
          | fuelOut =>
            rw [hf2] at h
            dsimp only at h
            exact absurd h (by decide)
          | res m2 =>
            cases m2 with
            | some l2 =>
              rw [hf2] at h
              dsimp only at h
              have h2 := re1.FindReverseInRope_len hf2
              have h3 := re1.New_ncap hnew
              rw [if_neg (by rw [List.isEmpty_iff_length_eq_zero]; omega)] at h
              exact absurd h (by simp)
            | none => exact ⟨rfl, rfl⟩

theorem c9_witness :
    edit.regexpAddr (NewRope [98, 97]) 0 false [97, 47] = .ok ((1, 2), []) :=
  (c9_regexp_addr_wrap.1 (NewRope [98, 97]) 0 [97, 47] []
      ⟨[⟨-9, 0⟩, ⟨97, 0⟩, ⟨-9, 1⟩, ⟨0, 0⟩], 1, []⟩ (by decide)).1
    [1, 2] (by decide)

/-! ## C10: the empty pattern matches the empty string at every position -/

/-- A reader buffer that has only ever been filled from the rope: 4 bytes
long, `n` of them real data, the remainder still the zero padding. -/
def FreshBuf (buf : List Nat) (n : Nat) : Prop :=
  buf.length = 4 ∧ n ≤ 4 ∧ buf.drop n = List.replicate (4 - n) 0

theorem decodeRune_le_four : ∀ p : List Nat, (decodeRune p).2 ≤ 4
  | [] => by simp [decodeRune]
  | [b0] => by simp only [decodeRune]; split_ifs <;> dsimp only <;> omega
  | [b0, b1] => by simp only [decodeRune]; split_ifs <;> dsimp only <;> omega
  | [b0, b1, b2] => by simp only [decodeRune]; split_ifs <;> dsimp only <;> omega
  | b0 :: b1 :: b2 :: b3 :: rest => by
    simp only [decodeRune]; split_ifs <;> dsimp only <;> omega

set_option maxHeartbeats 1000000 in
theorem decodeRune_zeros : ∀ (p : List Nat) (n : Nat), p.length = 4 → 1 ≤ n →
    p.drop n = List.replicate (4 - n) 0 → (decodeRune p).2 ≤ n
  | [], _, hl, _, _ => by simp only [List.length_nil] at hl; omega
  | [_], _, hl, _, _ => by
    simp only [List.length_cons, List.length_nil] at hl; omega
  | [_, _], _, hl, _, _ => by
    simp only [List.length_cons, List.length_nil] at hl; omega
  | [_, _, _], _, hl, _, _ => by
    simp only [List.length_cons, List.length_nil] at hl; omega
  | _ :: _ :: _ :: _ :: _ :: _, _, hl, _, _ => by
    simp only [List.length_cons, List.length_nil] at hl; omega
  | [b0, b1, b2, b3], n, _, h1, hz => by
    by_cases h4 : 4 ≤ n
    · exact le_trans (decodeRune_le_four _) h4
    · have h5 : n < 4 := by omega
      interval_cases n
      · obtain ⟨e1, e2, e3⟩ : b1 = 0 ∧ b2 = 0 ∧ b3 = 0 := by simpa using hz
        subst e1; subst e2; subst e3
        simp only [decodeRune]
        split_ifs <;> dsimp only <;> omega
      · obtain ⟨e2, e3⟩ : b2 = 0 ∧ b3 = 0 := by simpa using hz
        subst e2; subst e3
        simp only [decodeRune]
        split_ifs <;> dsimp only <;> omega
      · have e3 : b3 = 0 := by simpa using hz
        subst e3
        simp only [decodeRune]
        split_ifs <;> dsimp only <;> omega

theorem read_buf_eq (rd : Reader) (cap : Nat) :
    (rd.read cap).2.buf = rd.buf ∧ (rd.read cap).2.n = rd.n ∧
      (rd.read cap).1.length ≤ cap := by
  unfold Reader.read
  split
  · exact ⟨rfl, rfl, by simp⟩
  · refine ⟨rfl, rfl, ?_⟩
    rw [List.length_take]
    exact min_le_left _ _

theorem fillLoop_fresh : ∀ (fuel : Nat) (rd : Reader),
    FreshBuf rd.buf rd.n →
    FreshBuf (rd.fillLoop fuel).buf (rd.fillLoop fuel).n := by
  intro fuel
  induction fuel with
  | zero => intro rd h; exact h
  | succ k ih =>
    intro rd h
    obtain ⟨hl, hn, hz⟩ := h
    rw [Reader.fillLoop]
    split
    · rename_i hcond
      obtain ⟨hc1, hc2⟩ := hcond
      dsimp only
      split
      · rw [(read_buf_eq rd (4 - rd.n)).1, (read_buf_eq rd (4 - rd.n)).2.1]
        exact ⟨hl, hn, hz⟩
      · have hle := (read_buf_eq rd (4 - rd.n)).2.2
        apply ih
        refine ⟨?_, ?_, ?_⟩
        · simp only [List.length_append, List.length_take, List.length_drop, hl]
          omega
        · simp only
          omega
        · simp only
          rw [List.drop_left']
          · rw [← List.drop_drop, hz, List.drop_replicate]
            congr 1
            omega
          · simp only [List.length_append, List.length_take, hl]
            omega
    · exact ⟨hl, hn, hz⟩

theorem ReadRune_fresh {rd : Reader} (h : FreshBuf rd.buf rd.n) :
    (rd.ReadRune).1 ≠ .panicked := by
  unfold Reader.ReadRune
  obtain ⟨hl, hn, hz⟩ := fillLoop_fresh 5 rd h
  dsimp only
  split
  · simp
  · rename_i hn0
    have hd := decodeRune_zeros (rd.fillLoop 5).buf (rd.fillLoop 5).n hl
      (by omega) hz
    rw [if_neg (by omega)]
    simp

theorem RevReadRune_not_panicked (rd : RevReader) :
    (rd.ReadRune).1 ≠ .panicked := by
  unfold RevReader.ReadRune
  dsimp only
  split
  · simp
  · simp

theorem prevRune_some {ro : Rope} {s : Int} (h0 : 0 ≤ s)
    (h1 : s ≤ ((ro.len : Nat) : Int)) : ∃ c, re1.prevRune ro s = some c := by
  obtain ⟨sl, hsl, _⟩ := Slice_some le_rfl h0 h1
  unfold re1.prevRune
  rw [hsl]
  dsimp only
  have hp := RevReadRune_not_panicked (NewReverseReader sl)
  rcases hr : (NewReverseReader sl).ReadRune with ⟨r1, rd2⟩
  rw [hr] at hp
  cases r1 with
  | panicked => exact absurd rfl hp
  | eofR => exact ⟨-1, rfl⟩
  | ok r w => exact ⟨r, rfl⟩

theorem newVM_fwd_some (re : re1.Regexp) (sl : Rope) :
    ∃ v, re1.newVM re (.fwd (NewReader sl)) = some v ∧
      v.re = re ∧ v.vAt = 0 ∧ v.c = -1 ∧
      v.seen = List.replicate re.prog.length (-1) ∧
      v.cur = [] ∧ v.next = [] ∧ v.best = none := by
  have hp : ((NewReader sl).ReadRune).1 ≠ .panicked :=
    ReadRune_fresh ⟨rfl, Nat.zero_le 4, rfl⟩
  unfold re1.newVM re1.vmRead
  dsimp only [re1.RSrc.readRune]
  rcases hr : (NewReader sl).ReadRune with ⟨r1, rd2⟩
  rw [hr] at hp
  cases r1 with
  | panicked => exact absurd rfl hp
  | eofR => exact ⟨_, rfl, rfl, by simp, rfl, rfl, rfl, rfl, rfl⟩
  | ok r w => exact ⟨_, rfl, rfl, by simp, rfl, rfl, rfl, rfl, rfl⟩

theorem add_empty_prog (R : re1.RSrc) (c n0 s : Int) (hs : 0 ≤ s) :
    re1.add ⟨⟨[⟨-9, 0⟩, ⟨-9, 1⟩, ⟨0, 0⟩], 1, []⟩, R, s, s, c, n0,
        [-1, -1, -1], [], [], none⟩ 0 [-1, -1] 4
      = ⟨⟨[⟨-9, 0⟩, ⟨-9, 1⟩, ⟨0, 0⟩], 1, []⟩, R, s, s, c, n0,
        [s, s, s], [], [], some [s, s]⟩ := by
  have h1 : ¬((-1 : Int) = s) := by omega
  rw [show (4 : Nat) = 3 + 1 from rfl, re1.add]
  dsimp only
  rw [if_neg (show ¬(([(-1 : Int), -1, -1]).getD ((0 : Int)).toNat 0 = s) by
    simpa using h1)]
  show re1.add ⟨⟨[⟨-9, 0⟩, ⟨-9, 1⟩, ⟨0, 0⟩], 1, []⟩, R, s, s, c, n0,
      [s, -1, -1], [], [], none⟩ 1 [s, -1] (2 + 1) = _
  rw [re1.add]
  dsimp only
  rw [if_neg (show ¬(([s, (-1 : Int), -1]).getD ((1 : Int)).toNat 0 = s) by
    simpa using h1)]
  show re1.add ⟨⟨[⟨-9, 0⟩, ⟨-9, 1⟩, ⟨0, 0⟩], 1, []⟩, R, s, s, c, n0,
      [s, s, -1], [], [], none⟩ 2 [s, s] (1 + 1) = _
  rw [re1.add]
  dsimp only
  rw [if_neg (show ¬(([s, s, (-1 : Int)]).getD ((2 : Int)).toNat 0 = s) by
    simpa using h1)]
  rfl

theorem run_empty_prog (R : re1.RSrc) (c n0 s : Int) (fuel : Nat)
    (hs : 0 ≤ s) :
    re1.run ⟨⟨[⟨-9, 0⟩, ⟨-9, 1⟩, ⟨0, 0⟩], 1, []⟩, R, s, s, c, n0,
        [-1, -1, -1], [], [], none⟩ (fuel + 1) = .res (some [s, s]) := by
  rw [re1.run]
  dsimp only
  rw [if_pos rfl]
  rw [show re1.newMem 1 none = [(-1 : Int), -1] from rfl]
  rw [show ([⟨-9, 0⟩, ⟨-9, 1⟩, ⟨0, 0⟩] : List re1.Instr).length + 1 = 4
    from rfl]
  rw [add_empty_prog R c n0 s hs]
  dsimp only
  rw [if_pos ⟨hs, le_refl s⟩]

/-- C10: the regexp compiled from the empty pattern matches the empty
string at any position: for every rope `ro` and every `s` with
`0 ≤ s ≤ ro.Len()`, `FindInRope` over the window `[s, s)` returns the
match `[s, s]` — the VM seeds its initial thread (reaching the `match`
instruction through the two `save`s) before checking the window limit, so
even the empty window yields the empty match rather than `nil`. -/
theorem c10_empty_pattern_matches (ro : Rope) (s : Int)
    (h0 : 0 ≤ s) (h1 : s ≤ ((ro.len : Nat) : Int)) :
    ∃ re, re1.New [] {} = .ok (re, []) ∧
      re1.FindInRope re ro s s = .res (some [s, s]) := by
  refine ⟨⟨[⟨-9, 0⟩, ⟨-9, 1⟩, ⟨0, 0⟩], 1, []⟩, by decide, ?_⟩
  unfold re1.FindInRope
  obtain ⟨sl, hsl, _⟩ := Slice_some h0 h1 le_rfl
  rw [hsl]
  dsimp only
  obtain ⟨v, hv, hre, hvAt, hc, hseen, hcur, hnext, hbest⟩ :=
    newVM_fwd_some ⟨[⟨-9, 0⟩, ⟨-9, 1⟩, ⟨0, 0⟩], 1, []⟩ sl
  rw [hv]
  dsimp only
  obtain ⟨c, hpv⟩ := prevRune_some h0 h1
  rw [hpv]
  dsimp only
  have hveq : { v with c := c, vAt := s, lim := s } =
      (⟨⟨[⟨-9, 0⟩, ⟨-9, 1⟩, ⟨0, 0⟩], 1, []⟩, v.rdr, s, s, c, v.n,
        [-1, -1, -1], [], [], none⟩ : re1.VM) := by
    cases v
    simp_all
  rw [hveq]
  exact run_empty_prog v.rdr c v.n s (sl.len + 2) h0

theorem c10_witness :
    ∃ re, re1.New [] {} = .ok (re, []) ∧
      re1.FindInRope re (NewRope [97, 98]) 1 1 = .res (some [1, 1]) :=
  c10_empty_pattern_matches (NewRope [97, 98]) 1 (by decide) (by decide)
